import Mathlib

/-!
# SwitecX25 stepper driver: shallow embedding

The C module `SwitecX25.c` drives a six-state gauge stepper.  The embedding
below follows the source function by function.  Machine integers are natural
numbers reduced modulo `2 ^ 32` wherever the C arithmetic can wrap
(`unsigned int`, `uint32_t` and `unsigned long` are 32 bits wide on the
STM32F4 target, `int` is 32-bit two's complement).

* The clock `HAL_GetTick()` is an input: every function that reads `micros()`
  takes the tick value it reads as an argument.
* The GPIO port behind `x25->GPIOx` is modelled by the log of the
  `HAL_GPIO_WritePin` calls made on it, newest first.
* The table scan at the end of `advance` reads `defaultAccelTable[i]` with an
  unchecked index; a read past the last row is undefined in C and is `none`
  here, so `advance` and `update` return an `Option`.
* `HAL_Delay` only passes time and leaves the motor record alone; it has no
  counterpart in the model.
-/

namespace Switec

/-! ## Machine arithmetic -/

/-- Number of values of a 32-bit word. -/
def U32 : Nat := 4294967296

/-- Reduction of an integer to an `unsigned int`: the value modulo `2 ^ 32`.
This is also the conversion of an `int` to `unsigned int` that the usual
arithmetic conversions make when an `int` meets an `unsigned int`. -/
def toU32 (i : Int) : Nat := (i % 4294967296).toNat

/-- Unsigned 32-bit subtraction `a - b`, wrapping modulo `2 ^ 32`. -/
def sub32 (a b : Nat) : Nat := toU32 ((a : Int) - (b : Int))

/-- Unsigned 32-bit `v++`. -/
def inc32 (v : Nat) : Nat := (v + 1) % U32

/-- Unsigned 32-bit `v--`. -/
def dec32 (v : Nat) : Nat := sub32 v 1

/-- Conversion of an `unsigned int` to `int` (two's complement). -/
def toInt32 (n : Nat) : Int :=
  if n % U32 < 2147483648 then ((n % U32 : Nat) : Int) else ((n % U32 : Nat) : Int) - 4294967296

/-! ## Constants and tables -/

/-- `#define STATE_COUNT 6`. -/
def STATE_COUNT : Nat := 6

/-- `#define STEPS (315*3)`. -/
def STEPS : Nat := 315 * 3

/-- The six coil patterns, `static unsigned char stateMap[]`. -/
def stateMap : List Nat := [0x9, 0x1, 0x7, 0x6, 0xE, 0x8]

/-- The acceleration curve, rows `(cumulative steps, delay in microseconds)`. -/
def defaultAccelTable : List (Nat × Nat) :=
  [(20, 3000), (50, 1500), (100, 1000), (150, 800), (300, 600)]

/-- `sizeof(defaultAccelTable)/sizeof(*defaultAccelTable)`. -/
def DEFAULT_ACCEL_TABLE_SIZE : Nat := defaultAccelTable.length

/-- `micros()`: `HAL_GetTick() * 1000` in 32-bit arithmetic; `tick` is the value
`HAL_GetTick()` returns at the call. -/
def micros (tick : Nat) : Nat := (tick % U32 * 1000) % U32

/-! ## The motor record -/

/-- The array `uint16_t pins[4]`. -/
structure Pins where
  p0 : Nat
  p1 : Nat
  p2 : Nat
  p3 : Nat
deriving DecidableEq, Repr

/-- Array read `pins[i]` for `i < 4`. -/
def Pins.get (p : Pins) : Nat → Nat
  | 0 => p.p0
  | 1 => p.p1
  | 2 => p.p2
  | _ => p.p3

/-- One `HAL_GPIO_WritePin(port, pin, level)` call: the pin and the level. -/
structure PinWrite where
  pin : Nat
  level : Nat
deriving DecidableEq, Repr

/-- The record `struct SwitecX25`.  The field `GPIOx` stands for the port the
pointer designates: the log of the writes made on it, newest first. -/
structure SwitecX25 where
  steps : Nat
  pins : Pins
  currentState : Nat
  currentStep : Nat
  targetStep : Nat
  time0 : Nat
  microDelay : Nat
  maxVel : Nat
  vel : Nat
  dir : Int
  stopped : Nat
  GPIOx : List PinWrite
deriving DecidableEq, Repr

/-! ## Construction -/

/-- `init_stepper`.  The record comes from `malloc`; `time0` and `microDelay`
are not assigned by the constructor, so their initial contents `t0` and `d0`
are arbitrary.  The port starts with an empty write log. -/
def init_stepper (pin1 pin2 pin3 pin4 : Nat) (t0 d0 : Nat) : SwitecX25 :=
  { currentState := 0
    steps := STEPS
    pins := { p0 := pin1, p1 := pin2, p2 := pin3, p3 := pin4 }
    GPIOx := []
    dir := 0
    vel := 0
    stopped := 1
    currentStep := 0
    targetStep := 0
    maxVel := (defaultAccelTable.getD (DEFAULT_ACCEL_TABLE_SIZE - 1) (0, 0)).1
    time0 := t0
    microDelay := d0 }

/-! ## Commutation -/

/-- The loop of `writeIO`: `n` iterations are left, `i` is the loop counter,
`mask` the remaining bits; each iteration writes `mask & 0x1` to `pins[i]`
and shifts the mask. -/
def writeLoop (pins : Pins) : Nat → Nat → Nat → List PinWrite → List PinWrite
  | 0, _, _, log => log
  | n + 1, i, mask, log =>
      writeLoop pins n (i + 1) (mask >>> 1) ({ pin := pins.get i, level := mask &&& 1 } :: log)

/-- `writeIO`: drive the four pins with the pattern `stateMap[currentState]`.
Both callers reduce `currentState` modulo `STATE_COUNT` first, so the table
read is in bounds. -/
def writeIO (x : SwitecX25) : SwitecX25 :=
  { x with GPIOx := writeLoop x.pins 4 0 (stateMap.getD x.currentState 0) x.GPIOx }

/-- `stepUp`. -/
def stepUp (x : SwitecX25) : SwitecX25 :=
  if x.currentStep < x.steps then
    writeIO { x with currentStep := inc32 x.currentStep
                     currentState := (x.currentState + 1) % STATE_COUNT }
  else x

/-- `stepDown`. -/
def stepDown (x : SwitecX25) : SwitecX25 :=
  if x.currentStep > 0 then
    writeIO { x with currentStep := dec32 x.currentStep
                     currentState := (x.currentState + 5) % STATE_COUNT }
  else x

/-! ## Homing -/

/-- The `for` loop of `zero`: `n` calls of `stepDown`. -/
def zeroLoop : Nat → SwitecX25 → SwitecX25
  | 0, x => x
  | n + 1, x => zeroLoop n (stepDown x)

/-- `zero`.  The loop bound `x25->steps` is not changed by `stepDown`, so the
loop runs `steps` times. -/
def zero (x : SwitecX25) : SwitecX25 :=
  let x1 := { x with currentStep := sub32 x.steps 1 }
  let x2 := zeroLoop x1.steps x1
  { x2 with currentStep := 0, targetStep := 0, vel := 0, dir := 0 }

/-! ## The velocity and delay law -/

/-- The test `currentStep == targetStep && vel == 0` that opens `advance`. -/
def atRest (x : SwitecX25) : Bool :=
  decide (x.currentStep = x.targetStep ∧ x.vel = 0)

/-- Direction selection: `if (vel == 0) { dir = currentStep < targetStep ? 1 : -1; vel = 1; }`. -/
def selectDir (x : SwitecX25) : SwitecX25 :=
  if x.vel = 0 then
    { x with dir := if x.currentStep < x.targetStep then 1 else -1, vel := 1 }
  else x

/-- The step: `if (dir > 0) stepUp(x25); else stepDown(x25);`. -/
def stepDir (x : SwitecX25) : SwitecX25 :=
  if x.dir > 0 then stepUp x else stepDown x

/-- The local `int delta`: the unsigned difference converted to `int`. -/
def delta (x : SwitecX25) : Int :=
  if x.dir > 0 then toInt32 (sub32 x.targetStep x.currentStep)
  else toInt32 (sub32 x.currentStep x.targetStep)

/-- The four branches of the velocity update. -/
inductive VelCase where
  | decel
  | accel
  | cruise
  | away
deriving DecidableEq, Repr

/-- Which branch the velocity update takes.  In `delta < x25->vel` the `int`
is converted to `unsigned int`. -/
def velCase (x : SwitecX25) : VelCase :=
  if delta x > 0 then
    if toU32 (delta x) < x.vel then VelCase.decel
    else if x.vel < x.maxVel then VelCase.accel
    else VelCase.cruise
  else VelCase.away

/-- The velocity update: `vel--` in the branches `decel` and `away`, `vel++`
in `accel`, nothing in `cruise`. -/
def velUpdate (x : SwitecX25) : SwitecX25 :=
  match velCase x with
  | VelCase.decel => { x with vel := dec32 x.vel }
  | VelCase.accel => { x with vel := inc32 x.vel }
  | VelCase.cruise => x
  | VelCase.away => { x with vel := dec32 x.vel }

/-- The part of `advance` between the stopped test and the table scan. -/
def advanceMove (x : SwitecX25) : SwitecX25 :=
  velUpdate (stepDir (selectDir x))

/-- The scan `while (defaultAccelTable[i][0] < vel) i++;` over the rows from
index `i` on; `none` when the scan leaves the table. -/
def accelScan : List (Nat × Nat) → Nat → Nat → Option Nat
  | [], _, _ => none
  | row :: rest, i, vel => if row.1 < vel then accelScan rest (i + 1) vel else some i

/-- The delay `defaultAccelTable[i][1]` for the index the scan stops at. -/
def accelDelay (vel : Nat) : Option Nat :=
  match accelScan defaultAccelTable 0 vel with
  | none => none
  | some i => (defaultAccelTable.get? i).map (fun row => row.2)

/-- `advance`; `tick` is the clock value its `micros()` call reads. -/
def advance (x : SwitecX25) (tick : Nat) : Option SwitecX25 :=
  if atRest x then
    some { x with stopped := 1, dir := 0, time0 := micros tick }
  else
    match accelDelay (advanceMove x).vel with
    | none => none
    | some d => some { advanceMove x with microDelay := d, time0 := micros tick }

/-! ## Commands and polling -/

/-- `setPosition`; `tick` is the clock value read when the motor was stopped. -/
def setPosition (x : SwitecX25) (pos : Nat) (tick : Nat) : SwitecX25 :=
  let pos := if pos ≥ x.steps then sub32 x.steps 1 else pos
  let x1 := { x with targetStep := pos }
  if x1.stopped ≠ 0 then
    { x1 with stopped := 0, time0 := micros tick, microDelay := 0 }
  else x1

/-- The due test shared by `update` and `updateBlocking`:
`micros() - time0 >= microDelay` in unsigned 32-bit arithmetic. -/
def due (x : SwitecX25) (tick : Nat) : Bool :=
  decide (sub32 (micros tick) x.time0 ≥ x.microDelay)

/-- `update`; `tick` is the clock value read by `update` itself, `tick2` the
one read by `advance` when it is called. -/
def update (x : SwitecX25) (tick tick2 : Nat) : Option SwitecX25 :=
  if x.stopped = 0 then
    if due x tick then advance x tick2 else some x
  else some x

/-! ## Call sequences -/

/-- One call of the public interface, with the clock values it reads. -/
inductive Cmd where
  | setPosition (pos tick : Nat)
  | update (tick tick2 : Nat)
  | zero
  | stepUp
  | stepDown
deriving DecidableEq, Repr

/-- Effect of one call. -/
def exec (x : SwitecX25) : Cmd → Option SwitecX25
  | Cmd.setPosition pos tick => some (setPosition x pos tick)
  | Cmd.update tick tick2 => update x tick tick2
  | Cmd.zero => some (zero x)
  | Cmd.stepUp => some (stepUp x)
  | Cmd.stepDown => some (stepDown x)

/-- Effect of a sequence of calls, first call first. -/
def run : List Cmd → SwitecX25 → Option SwitecX25
  | [], x => some x
  | c :: cs, x =>
    match exec x c with
    | none => none
    | some y => run cs y

/-- A sequence of `update` calls; each pair holds the clock value read by
`update` and the one read by `advance`. -/
def polls : List (Nat × Nat) → SwitecX25 → Option SwitecX25
  | [], x => some x
  | p :: ps, x =>
    match update x p.1 p.2 with
    | none => none
    | some y => polls ps y

/-- Every poll of the sequence finds the motor due: the clock has advanced by
at least the stored delay since `time0`. -/
def eachDue : List (Nat × Nat) → SwitecX25 → Bool
  | [], _ => true
  | p :: ps, x =>
    due x p.1 &&
      match update x p.1 p.2 with
      | none => true
      | some y => eachDue ps y

/-- Every poll of the sequence is entered with a nonzero velocity. -/
def eachMoving : List (Nat × Nat) → SwitecX25 → Bool
  | [], _ => true
  | p :: ps, x =>
    decide (x.vel ≠ 0) &&
      match update x p.1 p.2 with
      | none => true
      | some y => eachMoving ps y

/-- A clock schedule of `n` polls, 3 ms apart, the first at tick `3 * k`:
every delay of the acceleration table has elapsed at each poll. -/
def everyThreeMs : Nat → Nat → List (Nat × Nat)
  | 0, _ => []
  | n + 1, k => (3 * k, 3 * k) :: everyThreeMs n (k + 1)

/-- The same schedule as a list of `update` calls. -/
def pollCmds (n k : Nat) : List Cmd :=
  (everyThreeMs n k).map (fun p => Cmd.update p.1 p.2)

/-! ## Motion state

The position, target, velocity, direction and stopped flag after `advance`
depend on the same fields, `steps` and `maxVel` only.  `motion` keeps these
fields and clears the pins, the port log, the commutation index and the
timing fields. -/

/-- The record with everything but the motion fields cleared. -/
def motion (x : SwitecX25) : SwitecX25 :=
  { x with pins := { p0 := 0, p1 := 0, p2 := 0, p3 := 0 }, currentState := 0, time0 := 0,
           microDelay := 0, GPIOx := [] }

/-- The `advance` call on motion states. -/
def motionStep (c : SwitecX25) : Option SwitecX25 :=
  (advance c 0).map motion

/-- The `advance` call repeated `n` times on motion states, each call entered
with `stopped` clear; `none` when a call is entered stopped or leaves the
acceleration table. -/
def motionRun : Nat → SwitecX25 → Option SwitecX25
  | 0, c => some c
  | n + 1, c =>
    if c.stopped = 0 then
      match motionStep c with
      | none => none
      | some c2 => motionRun n c2
    else none

/-! ## Scenario states -/

/-- The motor at rest on the last valid step: the state the calls
`setPosition(944)` and 945 due polls leave, up to the port log and timing. -/
def restAtTop : SwitecX25 :=
  { init_stepper 1 2 4 8 0 0 with currentStep := 944, targetStep := 944, currentState := 2 }

/-- The motor in mid-motion: the state the calls `setPosition(10)` and three
due polls leave, up to the port log and timing. -/
def midMove : SwitecX25 :=
  { init_stepper 1 2 4 8 0 0 with
    currentStep := 3, targetStep := 10, currentState := 3, vel := 4, dir := 1, stopped := 0,
    time0 := 9000, microDelay := 3000 }

/-- The motion state after homing and `setPosition(500)`: at step 0, at rest,
target 500, `stopped` cleared. -/
def homedTo500 : SwitecX25 :=
  { steps := 945, pins := { p0 := 0, p1 := 0, p2 := 0, p3 := 0 }, currentState := 0,
    currentStep := 0, targetStep := 500, time0 := 0, microDelay := 0, maxVel := 300, vel := 0,
    dir := 0, stopped := 0, GPIOx := [] }

/-! ## Further notions: call classes, pattern distance, iterated calls -/

/-- A call that is not `zero`: `stepUp`, `stepDown`, `setPosition` or `update`. -/
def Cmd.notZero : Cmd → Bool
  | Cmd.zero => false
  | _ => true

/-- A call of `setPosition`, `update` or `zero`. -/
def Cmd.isCommand : Cmd → Bool
  | Cmd.stepUp => false
  | Cmd.stepDown => false
  | _ => true

/-- Number of the four pin bits in which two coil patterns differ. -/
def diffBits (a b : Nat) : Nat :=
  ((List.range 4).filter (fun i => (a >>> i) &&& 1 != (b >>> i) &&& 1)).length

/-- `advance` called repeatedly, as the blocking loop does when every poll is
due; one clock reading per call. -/
def advances : List Nat → SwitecX25 → Option SwitecX25
  | [], x => some x
  | t :: ts, x =>
    match advance x t with
    | none => none
    | some y => advances ts y

/-- The states a sequence of `update` calls goes through, one per poll. -/
def pollStates : List (Nat × Nat) → SwitecX25 → List SwitecX25
  | [], _ => []
  | p :: ps, x =>
    match update x p.1 p.2 with
    | none => []
    | some y => y :: pollStates ps y

/-- The motion states of `motionRun`: the start and the state after each of
up to `n` calls. -/
def motionTrace : Nat → SwitecX25 → List SwitecX25
  | 0, c => [c]
  | n + 1, c =>
    c :: (if c.stopped = 0 then
            match motionStep c with
            | none => []
            | some c2 => motionTrace n c2
          else [])

/-- The velocity update of `advance` as a function of the signed distance `r`
left after the step and the velocity `v` after direction selection: the four
branches `decel`, `accel`, `cruise` and `away`. -/
def velNext (maxVel : Nat) (r : Int) (v : Nat) : Nat :=
  if 0 < r ∧ r < (v : Int) then v - 1
  else if 0 < r ∧ v < maxVel then v + 1
  else if 0 < r then v
  else v - 1

/-- Within `N` calls of `advance`, whatever the clock reads, a call is entered
at rest on the target (`currentStep = targetStep`, `vel = 0`): that call, the
`n + 1`-th with `n < N`, takes the stopped return. -/
def RestWithin (N : Nat) (x : SwitecX25) : Prop :=
  ∀ ts : List Nat, N ≤ ts.length →
    ∃ n, n < N ∧ ∃ y, advances (ts.take n) x = some y ∧ atRest y = true ∧
      y.targetStep = x.targetStep

/-! ## Machine arithmetic lemmas -/

theorem inc32_of_lt {v : Nat} (h : v + 1 < U32) : inc32 v = v + 1 := by
  unfold inc32
  exact Nat.mod_eq_of_lt h

theorem dec32_of_pos {v : Nat} (h0 : 0 < v) (h : v < U32) : dec32 v = v - 1 := by
  unfold dec32 sub32 toU32
  unfold U32 at h
  omega

theorem sub32_one_of_pos {v : Nat} (h0 : 1 ≤ v) (h : v < U32) : sub32 v 1 = v - 1 := by
  unfold sub32 toU32
  unfold U32 at h
  omega

theorem micros_lt (tick : Nat) : micros tick < U32 := by
  unfold micros
  exact Nat.mod_lt _ (by decide)

/-! ## Stepping primitives -/

/-- The four pin writes `writeIO` makes for the pattern `m`, newest first:
bit `i` of the pattern goes to `pins[i]`. -/
theorem writeLoop_four (pins : Pins) (m : Nat) (log : List PinWrite) :
    writeLoop pins 4 0 m log =
      { pin := pins.p3, level := m / 8 % 2 } :: { pin := pins.p2, level := m / 4 % 2 } ::
      { pin := pins.p1, level := m / 2 % 2 } :: { pin := pins.p0, level := m % 2 } :: log := by
  simp only [writeLoop, Pins.get, Nat.and_one_is_mod, Nat.shiftRight_eq_div_pow]
  simp [Nat.div_div_eq_div_mul]

/-- Claim C9. With `steps` a 32-bit value: below the bound `stepUp` adds one to
`currentStep`, moves `currentState` to the next index modulo 6 and writes the
pattern `stateMap` holds at the new index to the four pins (bit `i` to
`pins[i]`), leaving every other field alone; at `currentStep >= steps` it
returns the record unchanged, port log included. -/
theorem stepUp_spec (x : SwitecX25) (hs : x.steps < U32) :
    (x.currentStep < x.steps →
      stepUp x =
        { x with
          currentStep := x.currentStep + 1
          currentState := (x.currentState + 1) % 6
          GPIOx :=
            { pin := x.pins.p3, level := stateMap.getD ((x.currentState + 1) % 6) 0 / 8 % 2 } ::
            { pin := x.pins.p2, level := stateMap.getD ((x.currentState + 1) % 6) 0 / 4 % 2 } ::
            { pin := x.pins.p1, level := stateMap.getD ((x.currentState + 1) % 6) 0 / 2 % 2 } ::
            { pin := x.pins.p0, level := stateMap.getD ((x.currentState + 1) % 6) 0 % 2 } ::
            x.GPIOx }) ∧
    (x.steps ≤ x.currentStep → stepUp x = x) := by
  constructor
  · intro h
    have h1 : inc32 x.currentStep = x.currentStep + 1 := inc32_of_lt (by omega)
    simp only [stepUp, if_pos h, writeIO, writeLoop_four, h1, STATE_COUNT]
  · intro h
    simp [stepUp, Nat.not_lt.mpr h]

/-- Witness for `stepUp_spec`: the first step up from the constructed state. -/
theorem stepUp_spec_witness :
    (init_stepper 1 2 4 8 0 0).steps < U32 ∧
    (init_stepper 1 2 4 8 0 0).currentStep < (init_stepper 1 2 4 8 0 0).steps ∧
    (stepUp (init_stepper 1 2 4 8 0 0)).currentStep = 1 ∧
    (stepUp (init_stepper 1 2 4 8 0 0)).currentState = 1 ∧
    (stepUp (init_stepper 1 2 4 8 0 0)).GPIOx =
      [{ pin := 8, level := 0 }, { pin := 4, level := 0 }, { pin := 2, level := 0 },
       { pin := 1, level := 1 }] :=
  ⟨by decide, by decide, by
    rw [(stepUp_spec (init_stepper 1 2 4 8 0 0) (by decide)).1 (by decide)]
    exact ⟨rfl, rfl, rfl⟩⟩

/-- Claim C10. With `currentStep` a 32-bit value and `currentState < 6`: above
zero `stepDown` takes one from `currentStep`, moves `currentState` to
`(currentState + 5) mod 6`, which is `(currentState - 1) mod 6` and the index
from which `+1 mod 6` leads back to `currentState`, writes the pattern of the
new index and leaves every other field alone; at `currentStep = 0` it returns
the record unchanged, so `currentStep` never wraps below zero. -/
theorem stepDown_spec (x : SwitecX25) (hs : x.currentStep < U32) (hc : x.currentState < 6) :
    (0 < x.currentStep →
      stepDown x =
        { x with
          currentStep := x.currentStep - 1
          currentState := (x.currentState + 5) % 6
          GPIOx :=
            { pin := x.pins.p3, level := stateMap.getD ((x.currentState + 5) % 6) 0 / 8 % 2 } ::
            { pin := x.pins.p2, level := stateMap.getD ((x.currentState + 5) % 6) 0 / 4 % 2 } ::
            { pin := x.pins.p1, level := stateMap.getD ((x.currentState + 5) % 6) 0 / 2 % 2 } ::
            { pin := x.pins.p0, level := stateMap.getD ((x.currentState + 5) % 6) 0 % 2 } ::
            x.GPIOx }) ∧
    (x.currentStep = 0 → stepDown x = x) ∧
    (((x.currentState + 5) % 6 : Nat) : Int) = ((x.currentState : Int) - 1) % 6 ∧
    ((x.currentState + 5) % 6 + 1) % STATE_COUNT = x.currentState ∧
    (stepDown x).currentStep ≤ x.currentStep := by
  refine ⟨?_, ?_, ?_, ?_, ?_⟩
  · intro h
    have h1 : dec32 x.currentStep = x.currentStep - 1 := dec32_of_pos h hs
    simp only [stepDown, gt_iff_lt, if_pos h, writeIO, writeLoop_four, h1, STATE_COUNT]
  · intro h
    simp [stepDown, h]
  · omega
  · unfold STATE_COUNT
    omega
  · unfold stepDown
    split
    · rename_i h
      simp only [ writeIO, dec32_of_pos h hs]
      omega
    · exact Nat.le_refl _

/-- Witness for `stepDown_spec`: one step down from position 3, index 3. -/
theorem stepDown_spec_witness :
    (stepDown { init_stepper 1 2 4 8 0 0 with currentStep := 3, currentState := 3 }).currentStep = 2 ∧
    (stepDown { init_stepper 1 2 4 8 0 0 with currentStep := 3, currentState := 3 }).currentState = 2 ∧
    (stepDown { init_stepper 1 2 4 8 0 0 with currentStep := 3, currentState := 3 }).GPIOx =
      [{ pin := 8, level := 0 }, { pin := 4, level := 1 }, { pin := 2, level := 1 },
       { pin := 1, level := 1 }] := by
  rw [(stepDown_spec { init_stepper 1 2 4 8 0 0 with currentStep := 3, currentState := 3 }
    (by decide) (by decide)).1 (by decide)]
  exact ⟨rfl, rfl, rfl⟩

theorem setPosition_targetStep (x : SwitecX25) (pos tick : Nat) (h1 : 1 ≤ x.steps)
    (hs : x.steps < U32) :
    (setPosition x pos tick).targetStep = min pos (x.steps - 1) ∧
    (setPosition x pos tick).steps = x.steps := by
  have hsub : sub32 x.steps 1 = x.steps - 1 := sub32_one_of_pos h1 hs
  have ht : (setPosition x pos tick).targetStep = if pos ≥ x.steps then x.steps - 1 else pos := by
    unfold setPosition
    simp only [hsub]
    split <;> rfl
  have hst : (setPosition x pos tick).steps = x.steps := by
    unfold setPosition
    simp only
    split <;> rfl
  rw [ht, hst]
  exact ⟨by split <;> omega, rfl⟩

/-- Claim C4. With `steps` a 32-bit value and `steps >= 1`: `setPosition`
stores `pos` in `targetStep` when `pos < steps` and `steps - 1` otherwise, that
is `min pos (steps - 1)`; it accepts every `pos` and the stored target is
below `steps`. -/
theorem setPosition_clamps (x : SwitecX25) (pos tick : Nat) (h1 : 1 ≤ x.steps)
    (hs : x.steps < U32) :
    (pos < x.steps → (setPosition x pos tick).targetStep = pos) ∧
    (x.steps ≤ pos → (setPosition x pos tick).targetStep = x.steps - 1) ∧
    (setPosition x pos tick).targetStep = min pos (x.steps - 1) ∧
    (setPosition x pos tick).targetStep < (setPosition x pos tick).steps := by
  have h := setPosition_targetStep x pos tick h1 hs
  rw [h.1, h.2]
  refine ⟨?_, ?_, rfl, ?_⟩
  · intro hp
    omega
  · intro hp
    omega
  · omega

/-- Witness for `setPosition_clamps`: position 1000 on the constructed state. -/
theorem setPosition_clamps_witness :
    (setPosition (init_stepper 1 2 4 8 0 0) 1000 0).targetStep = 944 :=
  ((setPosition_clamps (init_stepper 1 2 4 8 0 0) 1000 0 (by decide) (by decide)).2.1 (by decide))

/-- Claim C5. From any record, whatever its position, target, velocity,
direction, commutation index and stopped flag, `zero` ends with `currentStep`,
`targetStep`, `vel` and `dir` all zero. -/
theorem zero_resets (x : SwitecX25) :
    (zero x).currentStep = 0 ∧ (zero x).targetStep = 0 ∧ (zero x).vel = 0 ∧ (zero x).dir = 0 := by
  simp [zero]

/-! ## Fields the stepping primitives leave alone -/

theorem stepUp_keeps (x : SwitecX25) :
    (stepUp x).steps = x.steps ∧ (stepUp x).targetStep = x.targetStep ∧
    (stepUp x).maxVel = x.maxVel ∧ (stepUp x).vel = x.vel ∧ (stepUp x).dir = x.dir ∧
    (stepUp x).stopped = x.stopped ∧ (stepUp x).time0 = x.time0 ∧
    (stepUp x).microDelay = x.microDelay ∧ (stepUp x).pins = x.pins := by
  unfold stepUp
  split <;> simp [ writeIO]

theorem stepDown_keeps (x : SwitecX25) :
    (stepDown x).steps = x.steps ∧ (stepDown x).targetStep = x.targetStep ∧
    (stepDown x).maxVel = x.maxVel ∧ (stepDown x).vel = x.vel ∧ (stepDown x).dir = x.dir ∧
    (stepDown x).stopped = x.stopped ∧ (stepDown x).time0 = x.time0 ∧
    (stepDown x).microDelay = x.microDelay ∧ (stepDown x).pins = x.pins := by
  unfold stepDown
  split <;> simp [ writeIO]

theorem stepDir_keeps (x : SwitecX25) :
    (stepDir x).steps = x.steps ∧ (stepDir x).targetStep = x.targetStep ∧
    (stepDir x).maxVel = x.maxVel ∧ (stepDir x).vel = x.vel ∧ (stepDir x).dir = x.dir ∧
    (stepDir x).stopped = x.stopped ∧ (stepDir x).time0 = x.time0 ∧
    (stepDir x).microDelay = x.microDelay ∧ (stepDir x).pins = x.pins := by
  unfold stepDir
  split
  · exact stepUp_keeps x
  · exact stepDown_keeps x

theorem selectDir_keeps (x : SwitecX25) :
    (selectDir x).steps = x.steps ∧ (selectDir x).targetStep = x.targetStep ∧
    (selectDir x).maxVel = x.maxVel ∧ (selectDir x).currentStep = x.currentStep ∧
    (selectDir x).stopped = x.stopped ∧ (selectDir x).currentState = x.currentState ∧
    (selectDir x).GPIOx = x.GPIOx ∧ (selectDir x).pins = x.pins := by
  unfold selectDir
  split <;> simp

theorem selectDir_vel (x : SwitecX25) :
    (selectDir x).vel = if x.vel = 0 then 1 else x.vel := by
  unfold selectDir
  split <;> simp [*]

theorem selectDir_dir_of_moving (x : SwitecX25) (h : x.vel ≠ 0) : (selectDir x).dir = x.dir := by
  unfold selectDir
  rw [if_neg h]

theorem velUpdate_keeps (x : SwitecX25) :
    (velUpdate x).steps = x.steps ∧ (velUpdate x).targetStep = x.targetStep ∧
    (velUpdate x).maxVel = x.maxVel ∧ (velUpdate x).currentStep = x.currentStep ∧
    (velUpdate x).dir = x.dir ∧ (velUpdate x).stopped = x.stopped ∧
    (velUpdate x).currentState = x.currentState ∧ (velUpdate x).GPIOx = x.GPIOx ∧
    (velUpdate x).pins = x.pins := by
  unfold velUpdate
  split <;> simp

/-- The velocity after the update, branch by branch. -/
theorem velUpdate_vel (x : SwitecX25) :
    (velUpdate x).vel =
      match velCase x with
      | VelCase.decel => dec32 x.vel
      | VelCase.accel => inc32 x.vel
      | VelCase.cruise => x.vel
      | VelCase.away => dec32 x.vel := by
  unfold velUpdate
  split <;> simp [*]

theorem velCase_accel_lt (x : SwitecX25) (h : velCase x = VelCase.accel) : x.vel < x.maxVel := by
  unfold velCase at h
  split at h
  · split at h
    · exact absurd h (by decide)
    · split at h
      · assumption
      · exact absurd h (by decide)
  · exact absurd h (by decide)

/-- The table scan stays inside the table for every velocity up to the last
breakpoint. -/
theorem accelDelay_of_le (v : Nat) (h : v ≤ 300) : ∃ d, accelDelay v = some d := by
  simp only [accelDelay, accelScan, defaultAccelTable]
  split_ifs <;> first | omega | simp

theorem advanceMove_vel_le (x : SwitecX25) (hm : x.maxVel < U32) (hv : x.vel ≤ x.maxVel)
    (h1 : 1 ≤ x.maxVel) :
    1 ≤ (stepDir (selectDir x)).vel ∧ (stepDir (selectDir x)).vel ≤ x.maxVel ∧
    (advanceMove x).vel ≤ x.maxVel ∧
    (velCase (stepDir (selectDir x)) = VelCase.decel ∨
        velCase (stepDir (selectDir x)) = VelCase.away →
      (advanceMove x).vel + 1 = (stepDir (selectDir x)).vel) := by
  have hk := stepDir_keeps (selectDir x)
  have hs := selectDir_keeps x
  have hv2 : (stepDir (selectDir x)).vel = if x.vel = 0 then 1 else x.vel := by
    rw [hk.2.2.2.1, selectDir_vel]
  have hm2 : (stepDir (selectDir x)).maxVel = x.maxVel := by rw [hk.2.2.1, hs.2.2.1]
  have hge : 1 ≤ (stepDir (selectDir x)).vel := by rw [hv2]; split <;> omega
  have hle : (stepDir (selectDir x)).vel ≤ x.maxVel := by rw [hv2]; split <;> omega
  have hupd := velUpdate_vel (stepDir (selectDir x))
  have hacc := velCase_accel_lt (stepDir (selectDir x))
  have hdec : dec32 (stepDir (selectDir x)).vel = (stepDir (selectDir x)).vel - 1 :=
    dec32_of_pos hge (by omega)
  refine ⟨hge, hle, ?_, ?_⟩
  · unfold advanceMove
    rw [hupd]
    cases hc : velCase (stepDir (selectDir x)) with
    | decel => simp only [hdec]; omega
    | accel =>
      have := hacc hc
      simp only
      rw [inc32_of_lt (by omega)]
      omega
    | cruise => exact hle
    | away => simp only [hdec]; omega
  · intro hc
    unfold advanceMove
    rw [hupd]
    rcases hc with hc | hc <;> simp only [hc, hdec] <;> omega

theorem advance_some_iff (x : SwitecX25) (tick : Nat) (y : SwitecX25) :
    advance x tick = some y ↔
      (atRest x = true ∧ y = { x with stopped := 1, dir := 0, time0 := micros tick }) ∨
      (atRest x = false ∧ ∃ d, accelDelay (advanceMove x).vel = some d ∧
        y = { advanceMove x with microDelay := d, time0 := micros tick }) := by
  unfold advance
  cases hr : atRest x
  · cases hd : accelDelay (advanceMove x).vel <;> simp [eq_comm]
  · simp [eq_comm]

/-! ## Homing, commands and polls: fields left alone -/

theorem zeroLoop_keeps (n : Nat) (x : SwitecX25) :
    (zeroLoop n x).steps = x.steps ∧ (zeroLoop n x).maxVel = x.maxVel ∧
    (zeroLoop n x).stopped = x.stopped := by
  induction n generalizing x with
  | zero => exact ⟨rfl, rfl, rfl⟩
  | succ n ih =>
    have h := stepDown_keeps x
    have h2 := ih (stepDown x)
    simp only [zeroLoop]
    exact ⟨h2.1.trans h.1, h2.2.1.trans h.2.2.1, h2.2.2.trans h.2.2.2.2.2.1⟩

theorem zero_keeps (x : SwitecX25) :
    (zero x).steps = x.steps ∧ (zero x).maxVel = x.maxVel ∧ (zero x).stopped = x.stopped := by
  have h := zeroLoop_keeps x.steps { x with currentStep := sub32 x.steps 1 }
  simp only [zero]
  exact h

theorem setPosition_keeps (x : SwitecX25) (pos tick : Nat) :
    (setPosition x pos tick).steps = x.steps ∧ (setPosition x pos tick).maxVel = x.maxVel ∧
    (setPosition x pos tick).vel = x.vel ∧ (setPosition x pos tick).dir = x.dir ∧
    (setPosition x pos tick).currentStep = x.currentStep ∧
    (setPosition x pos tick).currentState = x.currentState ∧
    (setPosition x pos tick).GPIOx = x.GPIOx ∧ (setPosition x pos tick).pins = x.pins := by
  unfold setPosition
  simp only
  split <;> simp

theorem atRest_false_of_moving (x : SwitecX25) (h : x.vel ≠ 0) : atRest x = false := by
  simp [atRest, h]

theorem advanceMove_keeps (x : SwitecX25) :
    (advanceMove x).steps = x.steps ∧ (advanceMove x).targetStep = x.targetStep ∧
    (advanceMove x).maxVel = x.maxVel ∧ (advanceMove x).stopped = x.stopped ∧
    (advanceMove x).pins = x.pins ∧ (advanceMove x).dir = (selectDir x).dir := by
  have h1 := velUpdate_keeps (stepDir (selectDir x))
  have h2 := stepDir_keeps (selectDir x)
  have h3 := selectDir_keeps x
  unfold advanceMove
  refine ⟨?_, ?_, ?_, ?_, ?_, ?_⟩
  · rw [h1.1, h2.1, h3.1]
  · rw [h1.2.1, h2.2.1, h3.2.1]
  · rw [h1.2.2.1, h2.2.2.1, h3.2.2.1]
  · rw [h1.2.2.2.2.2.1, h2.2.2.2.2.2.1, h3.2.2.2.2.1]
  · rw [h1.2.2.2.2.2.2.2.2, h2.2.2.2.2.2.2.2.2, h3.2.2.2.2.2.2.2]
  · rw [h1.2.2.2.2.1, h2.2.2.2.2.1]

/-- One `advance` call keeps `vel <= maxVel` and does not touch `maxVel`. -/
theorem advance_vel_le (x : SwitecX25) (tick : Nat) (y : SwitecX25) (hm : x.maxVel < U32)
    (hv : x.vel ≤ x.maxVel) (h1 : 1 ≤ x.maxVel) (h : advance x tick = some y) :
    y.vel ≤ y.maxVel ∧ y.maxVel = x.maxVel := by
  rcases (advance_some_iff x tick y).1 h with ⟨_, hy⟩ | ⟨_, d, _, hy⟩
  · subst hy
    exact ⟨hv, rfl⟩
  · subst hy
    have hk := (advanceMove_keeps x).2.2.1
    have hle := (advanceMove_vel_le x hm hv h1).2.2.1
    simp only
    exact ⟨by rw [hk]; exact hle, hk⟩

theorem advance_dir_of_moving (x : SwitecX25) (tick : Nat) (y : SwitecX25) (hv : x.vel ≠ 0)
    (h : advance x tick = some y) : y.dir = x.dir := by
  rcases (advance_some_iff x tick y).1 h with ⟨hr, _⟩ | ⟨_, d, _, hy⟩
  · rw [atRest_false_of_moving x hv] at hr
    exact absurd hr (by decide)
  · subst hy
    simp only
    rw [(advanceMove_keeps x).2.2.2.2.2, selectDir_dir_of_moving x hv]

theorem update_cases (x : SwitecX25) (tick tick2 : Nat) (y : SwitecX25)
    (h : update x tick tick2 = some y) : y = x ∨ advance x tick2 = some y := by
  unfold update at h
  split at h
  · split at h
    · exact Or.inr h
    · exact Or.inl (Option.some.inj h).symm
  · exact Or.inl (Option.some.inj h).symm

theorem update_of_stopped (x : SwitecX25) (tick tick2 : Nat) (h : x.stopped ≠ 0) :
    update x tick tick2 = some x := by
  unfold update
  rw [if_neg h]

theorem update_of_due (x : SwitecX25) (tick tick2 : Nat) (h : x.stopped = 0)
    (hd : due x tick = true) : update x tick tick2 = advance x tick2 := by
  unfold update
  rw [if_pos h, if_pos hd]

/-- Every call of the interface keeps `vel <= maxVel = 300`. -/
theorem exec_vel_le (x : SwitecX25) (c : Cmd) (y : SwitecX25) (hv : x.vel ≤ x.maxVel)
    (hm : x.maxVel = 300) (h : exec x c = some y) : y.vel ≤ y.maxVel ∧ y.maxVel = 300 := by
  cases c with
  | setPosition pos tick =>
    have hk := setPosition_keeps x pos tick
    simp only [exec, Option.some.injEq] at h
    subst h
    rw [hk.2.1, hk.2.2.1]
    exact ⟨hv, hm⟩
  | update tick tick2 =>
    simp only [exec] at h
    rcases update_cases x tick tick2 y h with h | h
    · subst h
      exact ⟨hv, hm⟩
    · have := advance_vel_le x tick2 y (by rw [hm]; decide) hv (by omega) h
      exact ⟨this.1, this.2.trans hm⟩
  | zero =>
    have hk := zero_keeps x
    have hz := (show (zero x).vel = 0 by simp [zero])
    simp only [exec, Option.some.injEq] at h
    subst h
    rw [hk.2.1, hz]
    exact ⟨by omega, hm⟩
  | stepUp =>
    have hk := stepUp_keeps x
    simp only [exec, Option.some.injEq] at h
    subst h
    rw [hk.2.2.1, hk.2.2.2.1]
    exact ⟨hv, hm⟩
  | stepDown =>
    have hk := stepDown_keeps x
    simp only [exec, Option.some.injEq] at h
    subst h
    rw [hk.2.2.1, hk.2.2.2.1]
    exact ⟨hv, hm⟩

theorem run_vel_le (cmds : List Cmd) (x y : SwitecX25) (hv : x.vel ≤ x.maxVel)
    (hm : x.maxVel = 300) (h : run cmds x = some y) : y.vel ≤ y.maxVel ∧ y.maxVel = 300 := by
  induction cmds generalizing x with
  | nil =>
    simp only [run, Option.some.injEq] at h
    subst h
    exact ⟨hv, hm⟩
  | cons c cs ih =>
    simp only [run] at h
    cases hc : exec x c with
    | none => simp [hc] at h
    | some z =>
      simp only [hc] at h
      have hz := exec_vel_le x c z hv hm hc
      exact ih z hz.1 hz.2 h

theorem init_stepper_maxVel (p1 p2 p3 p4 t0 d0 : Nat) :
    (init_stepper p1 p2 p3 p4 t0 d0).maxVel = 300 := by
  rfl

/-! ## Velocity bounds -/

/-- Claim C2. For every record with `vel <= maxVel` and `maxVel >= 1` (`maxVel`
a 32-bit value): a call of `advance` that returns leaves `vel <= maxVel`; when
the call gets past the stopped test, the velocity update is reached with
`vel >= 1`, so both `vel--` statements (branches `decel` and `away`) take one
from a positive value without wrapping, and the updated velocity is at most
`maxVel`; with `maxVel <= 300` the call does return.  Every state reached from
`init_stepper` by `setPosition`, `update`, `zero`, `stepUp` and `stepDown`
calls has `vel <= maxVel` and `maxVel = 300`. -/
theorem advance_vel_in_range :
    (∀ (x : SwitecX25) (tick : Nat), x.maxVel < U32 → x.vel ≤ x.maxVel → 1 ≤ x.maxVel →
      (∀ y, advance x tick = some y → y.vel ≤ y.maxVel) ∧
      (atRest x = false →
        1 ≤ (stepDir (selectDir x)).vel ∧
        (advanceMove x).vel ≤ (advanceMove x).maxVel ∧
        (velCase (stepDir (selectDir x)) = VelCase.decel ∨
            velCase (stepDir (selectDir x)) = VelCase.away →
          (advanceMove x).vel + 1 = (stepDir (selectDir x)).vel)) ∧
      (x.maxVel ≤ 300 → ∃ y, advance x tick = some y)) ∧
    (∀ (p1 p2 p3 p4 t0 d0 : Nat) (cmds : List Cmd) (x : SwitecX25),
      run cmds (init_stepper p1 p2 p3 p4 t0 d0) = some x → x.vel ≤ x.maxVel ∧ x.maxVel = 300) := by
  constructor
  · intro x tick hm hv h1
    have hmv := advanceMove_vel_le x hm hv h1
    refine ⟨fun y hy => (advance_vel_le x tick y hm hv h1 hy).1, ?_, ?_⟩
    · intro _
      refine ⟨hmv.1, ?_, hmv.2.2.2⟩
      rw [(advanceMove_keeps x).2.2.1]
      exact hmv.2.2.1
    · intro h300
      cases hr : atRest x with
      | true => exact ⟨_, by simp only [advance, hr]; rfl⟩
      | false =>
        obtain ⟨d, hd⟩ := accelDelay_of_le (advanceMove x).vel (by have := hmv.2.2.1; omega)
        exact ⟨_, by simp only [advance, hr, hd]; rfl⟩
  · intro p1 p2 p3 p4 t0 d0 cmds x h
    exact run_vel_le cmds _ x (Nat.zero_le _) (init_stepper_maxVel p1 p2 p3 p4 t0 d0) h

/-- Witness for `advance_vel_in_range`: the first `advance` after
`setPosition(500)` on the constructed state returns. -/
theorem advance_vel_in_range_witness :
    ∃ y, advance (setPosition (init_stepper 1 2 4 8 0 0) 500 0) 3 = some y :=
  (advance_vel_in_range.1 (setPosition (init_stepper 1 2 4 8 0 0) 500 0) 3
    (by decide) (by decide) (by decide)).2.2 (by decide)

/-! ## Polling a stopped motor -/

theorem polls_of_stopped (ps : List (Nat × Nat)) (x : SwitecX25) (h : x.stopped ≠ 0) :
    polls ps x = some x := by
  induction ps with
  | nil => rfl
  | cons p ps ih => simp only [polls, update_of_stopped x p.1 p.2 h, ih]

/-- Claim C6. With `stopped` set, `update` returns the record unchanged for
every clock reading: no field changes and nothing is written to the port (the
port log is part of the record).  Hence any sequence of polls leaves a stopped
motor unchanged; only `setPosition` clears `stopped`. -/
theorem update_stopped_noop (x : SwitecX25) (h : x.stopped ≠ 0) :
    (∀ tick tick2, update x tick tick2 = some x) ∧ (∀ ps, polls ps x = some x) :=
  ⟨fun tick tick2 => update_of_stopped x tick tick2 h, fun ps => polls_of_stopped ps x h⟩

/-- Witness for `update_stopped_noop`: polling the motor at rest on step 944. -/
theorem update_stopped_noop_witness :
    restAtTop.stopped ≠ 0 ∧ update restAtTop 7 7 = some restAtTop ∧
    polls (everyThreeMs 5 1) restAtTop = some restAtTop :=
  ⟨by decide, (update_stopped_noop restAtTop (by decide)).1 7 7,
    (update_stopped_noop restAtTop (by decide)).2 (everyThreeMs 5 1)⟩

/-! ## Direction -/

theorem polls_dir_of_moving (ps : List (Nat × Nat)) (x z : SwitecX25)
    (hm : eachMoving ps x = true) (h : polls ps x = some z) : z.dir = x.dir := by
  induction ps generalizing x with
  | nil =>
    simp only [polls, Option.some.injEq] at h
    rw [h]
  | cons p ps ih =>
    simp only [polls] at h
    simp only [eachMoving, Bool.and_eq_true, decide_eq_true_eq] at hm
    cases hu : update x p.1 p.2 with
    | none => simp [hu] at h
    | some y =>
      simp only [hu] at h hm
      have hy : y.dir = x.dir := by
        rcases update_cases x p.1 p.2 y hu with e | e
        · rw [e]
        · exact advance_dir_of_moving x p.2 y hm.1 e
      rw [ih y hm.2 h, hy]

/-- Claim C8. An `advance` call entered with `vel > 0` leaves `dir` as it was,
whatever `targetStep` is (the call returns whenever `vel <= maxVel <= 300`);
`setPosition` changes neither `dir` nor `vel`; hence after a new target is
set in mid-motion, `dir` keeps its value over every sequence of polls each
entered with `vel > 0`: it can change only in a poll entered with `vel = 0`. -/
theorem dir_kept_while_moving (x : SwitecX25) (hv : x.vel ≠ 0) :
    (advanceMove x).dir = x.dir ∧
    (∀ tick y, advance x tick = some y → y.dir = x.dir) ∧
    (x.vel ≤ x.maxVel → x.maxVel ≤ 300 → ∀ tick, ∃ y, advance x tick = some y) ∧
    (∀ pos tick, (setPosition x pos tick).dir = x.dir ∧ (setPosition x pos tick).vel = x.vel) ∧
    (∀ pos tick ps z, eachMoving ps (setPosition x pos tick) = true →
      polls ps (setPosition x pos tick) = some z → z.dir = x.dir) := by
  refine ⟨?_, ?_, ?_, ?_, ?_⟩
  · rw [(advanceMove_keeps x).2.2.2.2.2, selectDir_dir_of_moving x hv]
  · intro tick y h
    exact advance_dir_of_moving x tick y hv h
  · intro hle h300 tick
    have hm : x.maxVel < U32 := by unfold U32; omega
    have hmv := advanceMove_vel_le x hm hle (by omega)
    obtain ⟨d, hd⟩ := accelDelay_of_le (advanceMove x).vel (by have := hmv.2.2.1; omega)
    exact ⟨_, by simp only [advance, atRest_false_of_moving x hv, hd]; rfl⟩
  · intro pos tick
    exact ⟨(setPosition_keeps x pos tick).2.2.2.1, (setPosition_keeps x pos tick).2.2.1⟩
  · intro pos tick ps z hm h
    rw [polls_dir_of_moving ps _ z hm h, (setPosition_keeps x pos tick).2.2.2.1]

/-- Witness for `dir_kept_while_moving`: in mid-motion towards 10 (step 3,
`vel = 4`, `dir = 1`) the target is set to 0; the next four due polls are
entered with `vel` 4, 3, 2, 1 and leave `dir = 1`. -/
theorem dir_kept_while_moving_witness :
    midMove.vel ≠ 0 ∧ eachMoving (everyThreeMs 4 4) (setPosition midMove 0 9) = true ∧
    (polls (everyThreeMs 4 4) (setPosition midMove 0 9)).map (fun z => z.dir) = some 1 := by
  have hm : eachMoving (everyThreeMs 4 4) (setPosition midMove 0 9) = true := by decide
  refine ⟨by decide, hm, ?_⟩
  cases h : polls (everyThreeMs 4 4) (setPosition midMove 0 9) with
  | none => exact absurd h (by decide)
  | some z =>
    rw [Option.map_some', (dir_kept_while_moving midMove (by decide)).2.2.2.2 0 9 _ z hm h]
    rfl

theorem advanceMove_vel_of_rest (x : SwitecX25) (hv : x.vel = 0) : (advanceMove x).vel ≤ 2 := by
  have hk := (stepDir_keeps (selectDir x)).2.2.2.1
  have h1 : (stepDir (selectDir x)).vel = 1 := by rw [hk, selectDir_vel, if_pos hv]
  unfold advanceMove
  rw [velUpdate_vel]
  have hd : dec32 1 = 0 := dec32_of_pos (by decide) (by decide)
  have hi : inc32 1 = 2 := inc32_of_lt (by decide)
  cases velCase (stepDir (selectDir x)) <;> simp only [h1, hd, hi] <;> omega

theorem selectDir_dir_of_rest (x : SwitecX25) (hv : x.vel = 0) :
    (selectDir x).dir = if x.currentStep < x.targetStep then 1 else -1 := by
  unfold selectDir
  rw [if_pos hv]

theorem setPosition_of_stopped (x : SwitecX25) (pos tick : Nat) (h : x.stopped ≠ 0) :
    (setPosition x pos tick).stopped = 0 ∧ (setPosition x pos tick).microDelay = 0 ∧
    (setPosition x pos tick).time0 = micros tick := by
  unfold setPosition
  simp only
  rw [if_pos h]
  exact ⟨rfl, rfl, rfl⟩

theorem due_of_no_delay (x : SwitecX25) (tick : Nat) (h : x.microDelay = 0) :
    due x tick = true := by
  unfold due
  rw [h]
  exact decide_eq_true (Nat.zero_le _)

/-- Claim C7, amended. From every rest state (`stopped` set, `vel = 0`,
`currentStep < steps`, `steps` a 32-bit value) and for every commanded `pos`
and all clock readings, `setPosition(pos)` followed by one `update` returns,
with `dir = +1` when the clamped target `min pos (steps - 1)` is above
`currentStep`, `dir = -1` when `pos` is below `currentStep`, and `dir = 0`
with `stopped` set again when the clamped target equals `currentStep`. -/
theorem first_poll_direction (x : SwitecX25) (pos t1 t2 t3 : Nat) (hs : x.steps < U32)
    (hstop : x.stopped ≠ 0) (hv : x.vel = 0) (hc : x.currentStep < x.steps) :
    ∃ y, update (setPosition x pos t1) t2 t3 = some y ∧
      (x.currentStep < min pos (x.steps - 1) → y.dir = 1) ∧
      (pos < x.currentStep → y.dir = -1) ∧
      (min pos (x.steps - 1) = x.currentStep → y.dir = 0 ∧ y.stopped = 1) := by
  have hk := setPosition_keeps x pos t1
  have hst := setPosition_of_stopped x pos t1 hstop
  have ht := (setPosition_targetStep x pos t1 (by omega) hs).1
  have hv2 : (setPosition x pos t1).vel = 0 := by rw [hk.2.2.1, hv]
  rw [update_of_due _ t2 t3 hst.1 (due_of_no_delay _ t2 hst.2.1)]
  by_cases he : min pos (x.steps - 1) = x.currentStep
  · have hr : atRest (setPosition x pos t1) = true := by
      simp only [atRest, decide_eq_true_eq]
      exact ⟨by rw [hk.2.2.2.2.1, ht, he], hv2⟩
    refine ⟨_, by simp only [advance, hr]; rfl, ?_, ?_, ?_⟩
    · intro h; omega
    · intro h; omega
    · intro _; exact ⟨rfl, rfl⟩
  · have hr : atRest (setPosition x pos t1) = false := by
      simp only [atRest, decide_eq_false_iff_not, not_and]
      intro h
      rw [hk.2.2.2.2.1, ht] at h
      exact absurd h.symm he
    obtain ⟨d, hd⟩ := accelDelay_of_le (advanceMove (setPosition x pos t1)).vel
      (by have := advanceMove_vel_of_rest _ hv2; omega)
    have hdir : (advanceMove (setPosition x pos t1)).dir =
        if x.currentStep < min pos (x.steps - 1) then 1 else -1 := by
      rw [(advanceMove_keeps _).2.2.2.2.2, selectDir_dir_of_rest _ hv2, hk.2.2.2.2.1, ht]
    refine ⟨_, by simp only [advance, hr, hd]; rfl, ?_, ?_, ?_⟩
    · intro h
      simp only [hdir, if_pos h]
    · intro h
      simp only [hdir]
      rw [if_neg (by omega)]
    · intro h; exact absurd h he

/-- Witness for `first_poll_direction`: from rest on step 944, position 100 is
commanded; the first poll sets `dir = -1`. -/
theorem first_poll_direction_witness :
    ∃ y, update (setPosition restAtTop 100 2836) 2839 2839 = some y ∧ y.dir = -1 := by
  obtain ⟨y, hy, _, h, _⟩ :=
    first_poll_direction restAtTop 100 2836 2839 2839 (by decide) (by decide) (by decide)
      (by decide)
  exact ⟨y, hy, h (by decide)⟩

/-- Claim C7 as stated fails: the motor rests on step 944 of 945 (`stopped`
set, `vel = 0`, `dir = 0`), position 1000 is commanded, which is above
`currentStep`; `setPosition` clamps the target to 944, the poll takes the
stopped return of `advance`, and `dir` is 0, not +1.  The rest state is the
one `setPosition(944)` and 945 due polls reach from the constructed state. -/
theorem first_poll_direction_counterexample :
    restAtTop.stopped ≠ 0 ∧ restAtTop.vel = 0 ∧ restAtTop.dir = 0 ∧
    restAtTop.currentStep < restAtTop.steps ∧ 1000 > restAtTop.currentStep ∧
    (update (setPosition restAtTop 1000 2836) 2839 2839).map (fun y => y.dir) = some 0 ∧
    (run (Cmd.setPosition 944 0 :: pollCmds 945 1) (init_stepper 1 2 4 8 0 0)).map motion =
      some (motion restAtTop) := by
  refine ⟨by decide, by decide, by decide, by decide, by decide, by decide, ?_⟩
  decide!

/-! ## Motion states

`advance` computes the motion fields from the motion fields alone. -/

theorem motion_fields (x : SwitecX25) :
    motion x =
      { steps := x.steps, pins := { p0 := 0, p1 := 0, p2 := 0, p3 := 0 }, currentState := 0,
        currentStep := x.currentStep, targetStep := x.targetStep, time0 := 0, microDelay := 0,
        maxVel := x.maxVel, vel := x.vel, dir := x.dir, stopped := x.stopped, GPIOx := [] } :=
  rfl

theorem motion_eq_of (x y : SwitecX25) (h1 : x.steps = y.steps)
    (h2 : x.currentStep = y.currentStep) (h3 : x.targetStep = y.targetStep)
    (h4 : x.maxVel = y.maxVel) (h5 : x.vel = y.vel) (h6 : x.dir = y.dir)
    (h7 : x.stopped = y.stopped) : motion x = motion y := by
  rw [motion_fields x, motion_fields y, h1, h2, h3, h4, h5, h6, h7]

theorem motion_eq_iff (x y : SwitecX25) :
    motion x = motion y ↔
      x.steps = y.steps ∧ x.currentStep = y.currentStep ∧ x.targetStep = y.targetStep ∧
      x.maxVel = y.maxVel ∧ x.vel = y.vel ∧ x.dir = y.dir ∧ x.stopped = y.stopped := by
  constructor
  · intro h
    have e1 := congrArg SwitecX25.steps h
    have e2 := congrArg SwitecX25.currentStep h
    have e3 := congrArg SwitecX25.targetStep h
    have e4 := congrArg SwitecX25.maxVel h
    have e5 := congrArg SwitecX25.vel h
    have e6 := congrArg SwitecX25.dir h
    have e7 := congrArg SwitecX25.stopped h
    exact ⟨e1, e2, e3, e4, e5, e6, e7⟩
  · rintro ⟨h1, h2, h3, h4, h5, h6, h7⟩
    exact motion_eq_of x y h1 h2 h3 h4 h5 h6 h7

theorem motion_motion (x : SwitecX25) : motion (motion x) = motion x := rfl

theorem selectDir_motion (x y : SwitecX25) (h : motion x = motion y) :
    motion (selectDir x) = motion (selectDir y) := by
  obtain ⟨h1, h2, h3, h4, h5, h6, h7⟩ := (motion_eq_iff x y).1 h
  apply (motion_eq_iff _ _).2
  unfold selectDir
  rw [h5]
  split <;> simp [*]

theorem stepUp_motion (x y : SwitecX25) (h : motion x = motion y) :
    motion (stepUp x) = motion (stepUp y) := by
  obtain ⟨h1, h2, h3, h4, h5, h6, h7⟩ := (motion_eq_iff x y).1 h
  apply (motion_eq_iff _ _).2
  unfold stepUp
  rw [h1, h2]
  split <;> simp [ writeIO, *]

theorem stepDown_motion (x y : SwitecX25) (h : motion x = motion y) :
    motion (stepDown x) = motion (stepDown y) := by
  obtain ⟨h1, h2, h3, h4, h5, h6, h7⟩ := (motion_eq_iff x y).1 h
  apply (motion_eq_iff _ _).2
  unfold stepDown
  rw [h2]
  split <;> simp [ writeIO, *]

theorem stepDir_motion (x y : SwitecX25) (h : motion x = motion y) :
    motion (stepDir x) = motion (stepDir y) := by
  have h6 := ((motion_eq_iff x y).1 h).2.2.2.2.2.1
  unfold stepDir
  rw [h6]
  split
  · exact stepUp_motion x y h
  · exact stepDown_motion x y h

theorem velCase_motion (x y : SwitecX25) (h : motion x = motion y) : velCase x = velCase y := by
  obtain ⟨h1, h2, h3, h4, h5, h6, h7⟩ := (motion_eq_iff x y).1 h
  unfold velCase delta
  rw [h2, h3, h4, h5, h6]

theorem velUpdate_motion (x y : SwitecX25) (h : motion x = motion y) :
    motion (velUpdate x) = motion (velUpdate y) := by
  obtain ⟨h1, h2, h3, h4, h5, h6, h7⟩ := (motion_eq_iff x y).1 h
  have hc := velCase_motion x y h
  have hk := velUpdate_keeps x
  have hk2 := velUpdate_keeps y
  apply (motion_eq_iff _ _).2
  refine ⟨?_, ?_, ?_, ?_, ?_, ?_, ?_⟩
  · rw [hk.1, hk2.1, h1]
  · rw [hk.2.2.2.1, hk2.2.2.2.1, h2]
  · rw [hk.2.1, hk2.2.1, h3]
  · rw [hk.2.2.1, hk2.2.2.1, h4]
  · rw [velUpdate_vel, velUpdate_vel, hc, h5]
  · rw [hk.2.2.2.2.1, hk2.2.2.2.2.1, h6]
  · rw [hk.2.2.2.2.2.1, hk2.2.2.2.2.2.1, h7]

theorem advanceMove_motion (x y : SwitecX25) (h : motion x = motion y) :
    motion (advanceMove x) = motion (advanceMove y) :=
  velUpdate_motion _ _ (stepDir_motion _ _ (selectDir_motion x y h))

theorem atRest_motion (x y : SwitecX25) (h : motion x = motion y) : atRest x = atRest y := by
  obtain ⟨h1, h2, h3, h4, h5, h6, h7⟩ := (motion_eq_iff x y).1 h
  unfold atRest
  rw [h2, h3, h5]

/-- The motion fields after `advance` are those `advance` computes from the
motion fields, whatever the clock, the pins and the port log are. -/
theorem advance_motion (x y : SwitecX25) (t t2 : Nat) (h : motion x = motion y) :
    (advance x t).map motion = (advance y t2).map motion := by
  have hr := atRest_motion x y h
  have hm := advanceMove_motion x y h
  have hv : (advanceMove x).vel = (advanceMove y).vel := ((motion_eq_iff _ _).1 hm).2.2.2.2.1
  obtain ⟨h1, h2, h3, h4, h5, h6, h7⟩ := (motion_eq_iff x y).1 h
  obtain ⟨m1, m2, m3, m4, m5, m6, m7⟩ := (motion_eq_iff _ _).1 hm
  unfold advance
  rw [← hr, ← hv]
  cases atRest x with
  | true =>
    simp only [if_true, Option.map_some', Option.some.injEq]
    exact motion_eq_of _ _ h1 h2 h3 h4 h5 rfl rfl
  | false =>
    cases accelDelay (advanceMove x).vel with
    | none => rfl
    | some d =>
      simp only [Bool.false_eq_true, if_false, Option.map_some', Option.some.injEq]
      exact motion_eq_of _ _ m1 m2 m3 m4 m5 m6 m7

theorem advance_motionStep (x : SwitecX25) (t : Nat) :
    (advance x t).map motion = motionStep (motion x) :=
  advance_motion x (motion x) t 0 (motion_motion x).symm

/-! ## Runs of due polls -/

theorem motionRun_entered (n : Nat) (c cf : SwitecX25) (h : motionRun (n + 1) c = some cf) :
    c.stopped = 0 := by
  unfold motionRun at h
  by_cases hs : c.stopped = 0
  · exact hs
  · rw [if_neg hs] at h
    exact absurd h (by simp)

theorem motionRun_split (n m : Nat) (c cf : SwitecX25) (h : motionRun (n + m) c = some cf) :
    ∃ c2, motionRun n c = some c2 ∧ motionRun m c2 = some cf := by
  induction n generalizing c with
  | zero =>
    rw [Nat.zero_add] at h
    exact ⟨c, rfl, h⟩
  | succ n ih =>
    rw [Nat.add_right_comm] at h
    have hs := motionRun_entered (n + m) c cf h
    simp only [motionRun, if_pos hs] at h ⊢
    cases hstep : motionStep c with
    | none => simp [hstep] at h
    | some c1 =>
      simp only [hstep] at h ⊢
      exact ih c1 h

/-- A sequence of due polls follows `motionRun` on the motion fields. -/
theorem polls_motionRun (ps : List (Nat × Nat)) (x cf : SwitecX25) (hd : eachDue ps x = true)
    (hr : motionRun ps.length (motion x) = some cf) :
    ∃ z, polls ps x = some z ∧ motion z = cf := by
  induction ps generalizing x with
  | nil =>
    simp only [List.length_nil, motionRun, Option.some.injEq] at hr
    exact ⟨x, rfl, hr⟩
  | cons p ps ih =>
    simp only [List.length_cons] at hr
    have hs : x.stopped = 0 := motionRun_entered ps.length (motion x) cf hr
    simp only [eachDue, Bool.and_eq_true] at hd
    have hu := update_of_due x p.1 p.2 hs hd.1
    have hm := advance_motionStep x p.2
    simp only [motionRun] at hr
    rw [if_pos (show (motion x).stopped = 0 from hs), ← hm] at hr
    simp only [polls, hu]
    rw [hu] at hd
    cases ha : advance x p.2 with
    | none => simp [ha] at hr
    | some y =>
      simp only [ha, Option.map_some'] at hr hd ⊢
      exact ih y hd.2 hr

theorem polls_append (a b : List (Nat × Nat)) (x : SwitecX25) :
    polls (a ++ b) x = (polls a x).bind (polls b) := by
  induction a generalizing x with
  | nil => rfl
  | cons p a ih =>
    simp only [List.cons_append, polls]
    cases update x p.1 p.2 with
    | none => rfl
    | some y => exact ih y

theorem eachDue_take (n : Nat) (ps : List (Nat × Nat)) (x : SwitecX25)
    (h : eachDue ps x = true) : eachDue (ps.take n) x = true := by
  induction ps generalizing n x with
  | nil => simp [eachDue]
  | cons p ps ih =>
    cases n with
    | zero => simp [eachDue]
    | succ n =>
      simp only [List.take_succ_cons, eachDue, Bool.and_eq_true] at h ⊢
      refine ⟨h.1, ?_⟩
      cases hu : update x p.1 p.2 with
      | none => rfl
      | some y =>
        simp only [hu] at h ⊢
        exact ih n y h.2

theorem zero_fields (x : SwitecX25) :
    (zero x).currentStep = 0 ∧ (zero x).targetStep = 0 ∧ (zero x).vel = 0 ∧ (zero x).dir = 0 := by
  simp [zero]

/-- The motion state after `init_stepper`, `zero` and `setPosition(500)`. -/
theorem motion_homedTo500 (p1 p2 p3 p4 t0 d0 tz : Nat) :
    motion (setPosition (zero (init_stepper p1 p2 p3 p4 t0 d0)) 500 tz) = homedTo500 := by
  have hz := zero_keeps (init_stepper p1 p2 p3 p4 t0 d0)
  have hf := zero_fields (init_stepper p1 p2 p3 p4 t0 d0)
  have hsteps : (zero (init_stepper p1 p2 p3 p4 t0 d0)).steps = 945 := hz.1
  have hstop : (zero (init_stepper p1 p2 p3 p4 t0 d0)).stopped ≠ 0 := by
    rw [hz.2.2]
    exact Nat.one_ne_zero
  have hk := setPosition_keeps (zero (init_stepper p1 p2 p3 p4 t0 d0)) 500 tz
  have ht := setPosition_targetStep (zero (init_stepper p1 p2 p3 p4 t0 d0)) 500 tz
    (by rw [hsteps]; decide) (by rw [hsteps]; decide)
  have hs := setPosition_of_stopped (zero (init_stepper p1 p2 p3 p4 t0 d0)) 500 tz hstop
  rw [motion_fields, hk.1, hk.2.1, hk.2.2.1, hk.2.2.2.1, hk.2.2.2.2.1, ht.1, hs.1, hsteps,
    hz.2.1, hf.1, hf.2.2.1, hf.2.2.2]
  rfl

theorem motionRun_homedTo500 :
    (motionRun 503 homedTo500).map (fun c => (c.currentStep, c.vel, c.stopped)) =
      some (500, 0, 1) := by
  decide!

/-- Claim C3. With `steps = 945` and the default acceleration table: after
`init_stepper`, `zero` and `setPosition(500)`, for every pin assignment and
all clock readings, every sequence of polls that are each due returns; the
motor is still moving (`stopped = 0`) after fewer than 503 polls, and from the
503rd poll on it is stopped with `currentStep = 500`, `vel = 0` and
`stopped = 1`. -/
theorem home_then_500 (p1 p2 p3 p4 t0 d0 tz : Nat) (ps : List (Nat × Nat))
    (hd : eachDue ps (setPosition (zero (init_stepper p1 p2 p3 p4 t0 d0)) 500 tz) = true) :
    ∃ z, polls ps (setPosition (zero (init_stepper p1 p2 p3 p4 t0 d0)) 500 tz) = some z ∧
      (ps.length < 503 → z.stopped = 0) ∧
      (503 ≤ ps.length → z.currentStep = 500 ∧ z.vel = 0 ∧ z.stopped = 1) := by
  have hm := motion_homedTo500 p1 p2 p3 p4 t0 d0 tz
  have hrun := motionRun_homedTo500
  cases hcf : motionRun 503 homedTo500 with
  | none => simp [hcf] at hrun
  | some cf =>
    simp only [hcf, Option.map_some', Option.some.injEq, Prod.mk.injEq] at hrun
    by_cases hlen : ps.length < 503
    · have hsum : ps.length + (502 - ps.length + 1) = 503 := by omega
      rw [← hsum] at hcf
      obtain ⟨c2, hc2, hrest⟩ := motionRun_split _ _ _ _ hcf
      have hc2s := motionRun_entered _ _ _ hrest
      rw [← hm] at hc2
      obtain ⟨z, hz, hzm⟩ := polls_motionRun ps _ c2 hd hc2
      refine ⟨z, hz, fun _ => ?_, fun h => absurd h (by omega)⟩
      rw [← hzm] at hc2s
      exact hc2s
    · have hd1 := eachDue_take 503 ps _ hd
      have hl : (ps.take 503).length = 503 := by
        rw [List.length_take]
        omega
      rw [← hm, ← hl] at hcf
      obtain ⟨z, hz, hzm⟩ := polls_motionRun (ps.take 503) _ cf hd1 hcf
      have hfin : z.currentStep = 500 ∧ z.vel = 0 ∧ z.stopped = 1 := by
        rw [← hzm] at hrun
        exact hrun
      refine ⟨z, ?_, fun h => absurd h hlen, fun _ => hfin⟩
      rw [← List.take_append_drop 503 ps, polls_append, hz]
      exact polls_of_stopped _ z (by rw [hfin.2.2]; exact Nat.one_ne_zero)

theorem everyThreeMs_length (n k : Nat) : (everyThreeMs n k).length = n := by
  induction n generalizing k with
  | zero => rfl
  | succ n ih => simp only [everyThreeMs, List.length_cons, ih]

/-- Witness for `home_then_500`: 503 polls, 3 ms apart, after homing and
commanding position 500 at tick 0. -/
theorem home_then_500_witness :
    ∃ z, polls (everyThreeMs 503 1) (setPosition (zero (init_stepper 1 2 4 8 0 0)) 500 0) = some z ∧
      z.currentStep = 500 ∧ z.vel = 0 ∧ z.stopped = 1 := by
  obtain ⟨z, hz, _, h⟩ := home_then_500 1 2 4 8 0 0 0 (everyThreeMs 503 1) (by decide!)
  exact ⟨z, hz, h (by rw [everyThreeMs_length])⟩

/-! ## Travel range -/

theorem midMove_reached :
    (run (Cmd.setPosition 10 0 :: pollCmds 3 1) (init_stepper 1 2 4 8 0 0)).map motion =
      some (motion midMove) := by
  decide!

/-- Claim C1 fails on the code: from the constructed state (`steps = 945`),
`setPosition(942)`, 943 due polls (the motor stops on step 942),
`setPosition(944)` and three more due polls leave `currentStep = 945 = steps`,
outside `[0, steps)`; `targetStep` is 944.  The guard `currentStep < steps` of
`stepUp` lets the step from 944 to 945 through, whereas `setPosition` keeps
targets below `steps`. -/
theorem overtravel_at_top :
    (run (Cmd.setPosition 942 0 :: (pollCmds 943 1 ++ Cmd.setPosition 944 2830 :: pollCmds 3 944))
        (init_stepper 1 2 4 8 0 0)).map
      (fun y => (y.currentStep, y.steps, y.targetStep, decide (y.currentStep < y.steps))) =
      some (945, 945, 944, false) := by
  decide!

/-! ## The due check -/

theorem sub32_eq_emod (a b : Nat) :
    ((sub32 a b : Nat) : Int) = ((a : Int) - (b : Int)) % 4294967296 := by
  unfold sub32 toU32
  omega

/-- Claim C11. For every record with `stopped` clear and every clock reading:
when the elapsed time `(micros() - time0) mod 2 ^ 32` is at least `microDelay`,
`update` is one call of `advance`; otherwise it returns the record unchanged,
port log included.  In both cases `advance` is called at most once. -/
theorem update_due_check (x : SwitecX25) (tick tick2 : Nat) (h : x.stopped = 0) :
    (x.microDelay ≤ sub32 (micros tick) x.time0 → update x tick tick2 = advance x tick2) ∧
    (sub32 (micros tick) x.time0 < x.microDelay → update x tick tick2 = some x) ∧
    ((sub32 (micros tick) x.time0 : Nat) : Int) =
      ((micros tick : Int) - (x.time0 : Int)) % 4294967296 ∧
    (update x tick tick2 = advance x tick2 ∨ update x tick tick2 = some x) := by
  have hu : update x tick tick2 = if due x tick then advance x tick2 else some x := by
    unfold update
    rw [if_pos h]
  refine ⟨?_, ?_, sub32_eq_emod _ _, ?_⟩
  · intro hd
    rw [hu, if_pos (by unfold due; exact decide_eq_true hd)]
  · intro hd
    rw [hu, if_neg (by unfold due; simp only [decide_eq_true_eq]; omega)]
  · rw [hu]
    split
    · exact Or.inl rfl
    · exact Or.inr rfl

/-- Witness for `update_due_check`: in mid-motion (`time0 = 9000`,
`microDelay = 3000`) a poll at 11 ms is not due and changes nothing. -/
theorem update_due_check_witness : update midMove 11 11 = some midMove :=
  (update_due_check midMove 11 11 (by decide)).2.1 (by decide)

/-- Claim C12. On a stopped motor `setPosition` clears `stopped`, stores the
current clock reading in `time0` and 0 in `microDelay`, so the next `update`
is a call of `advance` whatever the clock reads, wrapped or not.  On a motor
that is not stopped `setPosition` changes `targetStep` only. -/
theorem setPosition_restart (x : SwitecX25) (pos tick : Nat) :
    (x.stopped ≠ 0 →
      (setPosition x pos tick).stopped = 0 ∧ (setPosition x pos tick).time0 = micros tick ∧
      (setPosition x pos tick).microDelay = 0 ∧
      ∀ t t2, update (setPosition x pos tick) t t2 = advance (setPosition x pos tick) t2) ∧
    (x.stopped = 0 →
      setPosition x pos tick =
        { x with targetStep := if pos ≥ x.steps then sub32 x.steps 1 else pos }) := by
  constructor
  · intro h
    have hs := setPosition_of_stopped x pos tick h
    exact ⟨hs.1, hs.2.2, hs.2.1, fun t t2 =>
      update_of_due _ t t2 hs.1 (due_of_no_delay _ t hs.2.1)⟩
  · intro h
    unfold setPosition
    simp only
    rw [if_neg (by simp [h])]

/-- Witness for `setPosition_restart`: a new target for the motor at rest on
step 944, then a poll with the clock wrapped back to 0. -/
theorem setPosition_restart_witness :
    (setPosition restAtTop 100 2836).microDelay = 0 ∧
    update (setPosition restAtTop 100 2836) 0 0 = advance (setPosition restAtTop 100 2836) 0 :=
  ⟨((setPosition_restart restAtTop 100 2836).1 (by decide)).2.2.1,
    ((setPosition_restart restAtTop 100 2836).1 (by decide)).2.2.2 0 0⟩

/-! ## The delay table -/

theorem accelScan_table (v : Nat) (h : v ≤ 300) :
    accelScan defaultAccelTable 0 v =
      some (if v ≤ 20 then 0 else if v ≤ 50 then 1 else if v ≤ 100 then 2
        else if v ≤ 150 then 3 else 4) := by
  simp only [accelScan, defaultAccelTable]
  split_ifs <;> first | rfl | omega

theorem accelDelay_table (v : Nat) (h : v ≤ 300) :
    accelDelay v =
      some (if v ≤ 20 then 3000 else if v ≤ 50 then 1500 else if v ≤ 100 then 1000
        else if v ≤ 150 then 800 else 600) := by
  unfold accelDelay
  rw [accelScan_table v h]
  simp only [defaultAccelTable]
  split_ifs <;> rfl

theorem advance_microDelay (x : SwitecX25) (t : Nat) (y : SwitecX25) (hr : atRest x = false)
    (h : advance x t = some y) : accelDelay y.vel = some y.microDelay := by
  rcases (advance_some_iff x t y).1 h with ⟨h1, _⟩ | ⟨_, d, hd, hy⟩
  · rw [hr] at h1
    exact absurd h1 (by decide)
  · subst hy
    exact hd

/-- Claim C15. For every velocity `v <= 300` the table scan stops at an index
below 5, the first row whose step count is at least `v`, and the delay taken
is 3000 for `v <= 20`, 1500 for 21..50, 1000 for 51..100, 800 for 101..150 and
600 for 151..300; the delay does not increase with `v`.  Every `advance` call
that gets past the stopped test stores the delay of the new `vel` in
`microDelay`. -/
theorem delay_lookup :
    (∀ v : Nat, v ≤ 300 →
      (∃ i, i < DEFAULT_ACCEL_TABLE_SIZE ∧ accelScan defaultAccelTable 0 v = some i ∧
        v ≤ (defaultAccelTable.getD i (0, 0)).1 ∧
        (∀ j, j < i → (defaultAccelTable.getD j (0, 0)).1 < v) ∧
        accelDelay v = some (defaultAccelTable.getD i (0, 0)).2) ∧
      accelDelay v =
        some (if v ≤ 20 then 3000 else if v ≤ 50 then 1500 else if v ≤ 100 then 1000
          else if v ≤ 150 then 800 else 600) ∧
      ∀ w dv dw, v ≤ w → w ≤ 300 → accelDelay v = some dv → accelDelay w = some dw → dw ≤ dv) ∧
    (∀ (x : SwitecX25) (t : Nat) (y : SwitecX25), atRest x = false → advance x t = some y →
      accelDelay y.vel = some y.microDelay) := by
  refine ⟨fun v h => ⟨?_, accelDelay_table v h, ?_⟩, advance_microDelay⟩
  · refine ⟨_, ?_, accelScan_table v h, ?_, ?_, ?_⟩
    · simp only [DEFAULT_ACCEL_TABLE_SIZE, defaultAccelTable, List.length_cons, List.length_nil]
      split_ifs <;> omega
    · simp only [defaultAccelTable]
      split_ifs <;> simp <;> omega
    · intro j hj
      simp only [defaultAccelTable]
      split_ifs at hj <;> interval_cases j <;> simp <;> omega
    · rw [accelDelay_table v h]
      simp only [defaultAccelTable]
      split_ifs <;> rfl
  · intro w dv dw hvw hw hdv hdw
    rw [accelDelay_table v h] at hdv
    rw [accelDelay_table w hw] at hdw
    simp only [Option.some.injEq] at hdv hdw
    subst hdv hdw
    split_ifs <;> omega

/-- Witness for `delay_lookup`: velocity 251 takes the last row, 600 us. -/
theorem delay_lookup_witness : accelDelay 251 = some 600 :=
  (delay_lookup.1 251 (by decide)).2.1

/-! ## The commutation table -/

/-- Claim C17 as stated fails: the patterns at indices 1 and 2, `0x1` and
`0x7`, differ in two bits (bits 1 and 2), not one. -/
theorem stateMap_neighbours_counterexample :
    stateMap.getD 1 0 = 0x1 ∧ stateMap.getD ((1 + 1) % 6) 0 = 0x7 ∧
    diffBits (stateMap.getD 1 0) (stateMap.getD ((1 + 1) % 6) 0) = 2 := by
  decide

/-- Claim C17, amended. For every index `i < 6` the patterns `stateMap[i]` and
`stateMap[(i + 1) mod 6]` differ in exactly one bit when `i` is 0, 2, 3 or 5
and in exactly two bits when `i` is 1 or 4. -/
theorem stateMap_neighbours (i : Nat) (h : i < 6) :
    diffBits (stateMap.getD i 0) (stateMap.getD ((i + 1) % STATE_COUNT) 0) =
      if i = 1 ∨ i = 4 then 2 else 1 := by
  interval_cases i <;> decide

/-- Witness for `stateMap_neighbours`: index 4, patterns `0xE` and `0x8`. -/
theorem stateMap_neighbours_witness :
    diffBits (stateMap.getD 4 0) (stateMap.getD ((4 + 1) % STATE_COUNT) 0) = 2 :=
  stateMap_neighbours 4 (by decide)

/-! ## Position and commutation index along calls -/

theorem stepUp_pos (x : SwitecX25) (hs : x.steps < U32) :
    (stepUp x).currentStep = (if x.currentStep < x.steps then x.currentStep + 1 else x.currentStep) ∧
    (stepUp x).currentState =
      (if x.currentStep < x.steps then (x.currentState + 1) % 6 else x.currentState) := by
  unfold stepUp
  by_cases h : x.currentStep < x.steps
  · have h1 : inc32 x.currentStep = x.currentStep + 1 := inc32_of_lt (by omega)
    simp only [if_pos h, writeIO, h1, STATE_COUNT, and_self]
  · simp only [if_neg h, and_self]

theorem stepDown_pos (x : SwitecX25) (hc : x.currentStep < U32) :
    (stepDown x).currentStep = x.currentStep - 1 ∧
    (stepDown x).currentState =
      (if 0 < x.currentStep then (x.currentState + 5) % 6 else x.currentState) := by
  unfold stepDown
  by_cases h : 0 < x.currentStep
  · have h1 : dec32 x.currentStep = x.currentStep - 1 := dec32_of_pos h hc
    simp only [gt_iff_lt, if_pos h, writeIO, h1, STATE_COUNT, and_self]
  · simp only [gt_iff_lt, if_neg h, and_true]
    omega

theorem advanceMove_pos (x : SwitecX25) :
    (advanceMove x).currentStep = (stepDir (selectDir x)).currentStep ∧
    (advanceMove x).currentState = (stepDir (selectDir x)).currentState := by
  have h := velUpdate_keeps (stepDir (selectDir x))
  unfold advanceMove
  exact ⟨h.2.2.2.1, h.2.2.2.2.2.2.1⟩

/-- After `advance` the position and the commutation index are those of the
record itself (stopped return) or of the step taken. -/
theorem advance_pos (x : SwitecX25) (t : Nat) (y : SwitecX25) (h : advance x t = some y) :
    y.steps = x.steps ∧ y.targetStep = x.targetStep ∧
    ((y.currentStep = x.currentStep ∧ y.currentState = x.currentState) ∨
     (y.currentStep = (stepUp x).currentStep ∧ y.currentState = (stepUp x).currentState) ∨
     (y.currentStep = (stepDown x).currentStep ∧ y.currentState = (stepDown x).currentState)) := by
  rcases (advance_some_iff x t y).1 h with ⟨_, hy⟩ | ⟨_, d, _, hy⟩
  · subst hy
    exact ⟨rfl, rfl, Or.inl ⟨rfl, rfl⟩⟩
  · subst hy
    have hk := advanceMove_keeps x
    have hp := advanceMove_pos x
    have hs := selectDir_keeps x
    refine ⟨hk.1, hk.2.1, Or.inr ?_⟩
    simp only [hp.1, hp.2]
    unfold stepDir
    split
    · left
      unfold stepUp
      rw [hs.2.2.2.1, hs.1, hs.2.2.2.2.2.1]
      split <;> simp [ writeIO, hs.2.2.2.1, hs.2.2.2.2.2.1]
    · right
      unfold stepDown
      rw [hs.2.2.2.1, hs.2.2.2.2.2.1]
      split <;> simp [ writeIO, hs.2.2.2.1, hs.2.2.2.2.2.1]

theorem update_cases_stopped (x : SwitecX25) (tick tick2 : Nat) (y : SwitecX25)
    (h : update x tick tick2 = some y) : y = x ∨ (x.stopped = 0 ∧ advance x tick2 = some y) := by
  unfold update at h
  split at h
  · rename_i hs
    split at h
    · exact Or.inr ⟨hs, h⟩
    · exact Or.inl (Option.some.inj h).symm
  · exact Or.inl (Option.some.inj h).symm

/-- Every call but `zero` keeps `steps`, keeps the position within `0 .. steps`
and the target below `steps`, moves the position and the commutation index
together, so that `(currentState - currentStep) mod 6` is kept, and keeps the
index below 6. -/
theorem exec_phase (x : SwitecX25) (c : Cmd) (y : SwitecX25) (hn : c.notZero = true)
    (hs : x.steps < U32) (hc : x.currentStep ≤ x.steps) (h : exec x c = some y) :
    y.steps = x.steps ∧ y.currentStep ≤ y.steps ∧
    ((y.currentState : Int) - (y.currentStep : Int)) % 6 =
      ((x.currentState : Int) - (x.currentStep : Int)) % 6 ∧
    (x.currentState < 6 → y.currentState < 6) := by
  have hcu : x.currentStep < U32 := by omega
  have hup := stepUp_pos x hs
  have hdn := stepDown_pos x hcu
  have key : ∀ z : SwitecX25, z.steps = x.steps →
      ((z.currentStep = x.currentStep ∧ z.currentState = x.currentState) ∨
       (z.currentStep = (stepUp x).currentStep ∧ z.currentState = (stepUp x).currentState) ∨
       (z.currentStep = (stepDown x).currentStep ∧
         z.currentState = (stepDown x).currentState)) →
      z.steps = x.steps ∧ z.currentStep ≤ z.steps ∧
      ((z.currentState : Int) - (z.currentStep : Int)) % 6 =
        ((x.currentState : Int) - (x.currentStep : Int)) % 6 ∧
      (x.currentState < 6 → z.currentState < 6) := by
    intro z hz hcases
    rw [hup.1, hup.2, hdn.1, hdn.2] at hcases
    refine ⟨hz, ?_, ?_, ?_⟩
    · rw [hz]
      rcases hcases with ⟨e, _⟩ | ⟨e, _⟩ | ⟨e, _⟩
      · omega
      · rw [e]; split <;> omega
      · omega
    · rcases hcases with ⟨e1, e2⟩ | ⟨e1, e2⟩ | ⟨e1, e2⟩
      · rw [e1, e2]
      · rw [e1, e2]; split <;> omega
      · rw [e1, e2]; split <;> omega
    · intro h6
      rcases hcases with ⟨_, e2⟩ | ⟨_, e2⟩ | ⟨_, e2⟩
      · omega
      · rw [e2]; split <;> omega
      · rw [e2]; split <;> omega
  cases c with
  | setPosition pos tick =>
    have hk := setPosition_keeps x pos tick
    simp only [exec, Option.some.injEq] at h
    subst h
    exact key _ hk.1 (Or.inl ⟨hk.2.2.2.2.1, hk.2.2.2.2.2.1⟩)
  | update tick tick2 =>
    simp only [exec] at h
    rcases update_cases x tick tick2 y h with e | e
    · subst e
      exact key _ rfl (Or.inl ⟨rfl, rfl⟩)
    · have hp := advance_pos x tick2 y e
      exact key y hp.1 hp.2.2
  | zero => exact absurd hn (by decide)
  | stepUp =>
    simp only [exec, Option.some.injEq] at h
    subst h
    exact key _ (stepUp_keeps x).1 (Or.inr (Or.inl ⟨rfl, rfl⟩))
  | stepDown =>
    simp only [exec, Option.some.injEq] at h
    subst h
    exact key _ (stepDown_keeps x).1 (Or.inr (Or.inr ⟨rfl, rfl⟩))

theorem run_phase (cmds : List Cmd) (x y : SwitecX25) (hn : ∀ c ∈ cmds, c.notZero = true)
    (hs : x.steps < U32) (hc : x.currentStep ≤ x.steps) (h6 : x.currentState < 6)
    (h : run cmds x = some y) :
    y.steps = x.steps ∧ y.currentStep ≤ y.steps ∧ y.currentState < 6 ∧
    ((y.currentState : Int) - (y.currentStep : Int)) % 6 =
      ((x.currentState : Int) - (x.currentStep : Int)) % 6 := by
  induction cmds generalizing x with
  | nil =>
    simp only [run, Option.some.injEq] at h
    subst h
    exact ⟨rfl, hc, h6, rfl⟩
  | cons c cs ih =>
    simp only [run] at h
    cases hx : exec x c with
    | none => simp [hx] at h
    | some z =>
      simp only [hx] at h
      have hz := exec_phase x c z (hn c (List.mem_cons_self c cs)) hs hc hx
      have := ih z (fun c' hc' => hn c' (List.mem_cons_of_mem c hc')) (by rw [hz.1]; exact hs)
        hz.2.1 (hz.2.2.2 h6) h
      exact ⟨this.1.trans hz.1, this.2.1, this.2.2.1, this.2.2.2.trans hz.2.2.1⟩

/-- Claim C16. In every state reached from the constructed state by `stepUp`,
`stepDown`, `setPosition` and `update` calls, `currentState` is below 6 and
equals `currentStep mod 6`; each of these calls keeps
`(currentState - currentStep) mod 6` on every record whose position is within
`0 .. steps` (`steps` a 32-bit value). -/
theorem index_tracks_position :
    (∀ (p1 p2 p3 p4 t0 d0 : Nat) (cmds : List Cmd) (x : SwitecX25),
      (∀ c ∈ cmds, c.notZero = true) → run cmds (init_stepper p1 p2 p3 p4 t0 d0) = some x →
      x.currentState < 6 ∧ x.currentState = x.currentStep % 6) ∧
    (∀ (x : SwitecX25) (c : Cmd) (y : SwitecX25), c.notZero = true → x.steps < U32 →
      x.currentStep ≤ x.steps → exec x c = some y →
      ((y.currentState : Int) - (y.currentStep : Int)) % 6 =
        ((x.currentState : Int) - (x.currentStep : Int)) % 6) := by
  constructor
  · intro p1 p2 p3 p4 t0 d0 cmds x hn h
    have := run_phase cmds _ x hn (show (945 : Nat) < U32 by decide)
      (show (0 : Nat) ≤ 945 by decide) (show (0 : Nat) < 6 by decide) h
    have h0 : ((init_stepper p1 p2 p3 p4 t0 d0).currentState : Int) -
        ((init_stepper p1 p2 p3 p4 t0 d0).currentStep : Int) = 0 := by
      simp [init_stepper]
    have h4 := this.2.2.2
    rw [h0] at h4
    refine ⟨this.2.2.1, ?_⟩
    have := this.2.2.1
    omega
  · intro x c y hn hs hc h
    exact (exec_phase x c y hn hs hc h).2.2.1

/-- Witness for `index_tracks_position`: three polls towards step 10 and one
direct `stepDown` leave the position 2 and the index 2. -/
theorem index_tracks_position_witness :
    ∃ x, run (Cmd.setPosition 10 0 :: (pollCmds 3 1 ++ [Cmd.stepDown]))
        (init_stepper 1 2 4 8 0 0) = some x ∧ x.currentStep = 2 ∧ x.currentState = 2 ∧
      x.currentState = x.currentStep % 6 := by
  cases h : run (Cmd.setPosition 10 0 :: (pollCmds 3 1 ++ [Cmd.stepDown]))
      (init_stepper 1 2 4 8 0 0) with
  | none => exact absurd h (by decide)
  | some x =>
    have hx := index_tracks_position.1 1 2 4 8 0 0 _ x (by decide) h
    have h2 : (run (Cmd.setPosition 10 0 :: (pollCmds 3 1 ++ [Cmd.stepDown]))
      (init_stepper 1 2 4 8 0 0)).map (fun y => y.currentStep) = some 2 := by decide
    rw [h] at h2
    simp only [Option.map_some', Option.some.injEq] at h2
    refine ⟨x, rfl, h2, ?_, hx.2⟩
    rw [hx.2, h2]

/-! ## The stopped flag and the direction -/

theorem setPosition_stopped (x : SwitecX25) (pos tick : Nat) :
    (setPosition x pos tick).stopped = 0 := by
  unfold setPosition
  simp only
  split
  · rfl
  · rename_i h
    simpa using h

/-- The direction `advance` leaves when it gets past the stopped test. -/
theorem advance_moving (x : SwitecX25) (t : Nat) (y : SwitecX25) (hr : atRest x = false)
    (h : advance x t = some y) :
    y.stopped = x.stopped ∧ y.dir = (selectDir x).dir := by
  rcases (advance_some_iff x t y).1 h with ⟨h1, _⟩ | ⟨_, d, _, hy⟩
  · rw [hr] at h1
    exact absurd h1 (by decide)
  · subst hy
    exact ⟨(advanceMove_keeps x).2.2.2.1, (advanceMove_keeps x).2.2.2.2.2⟩

theorem advance_at_rest (x : SwitecX25) (t : Nat) (hr : atRest x = true) :
    advance x t = some { x with stopped := 1, dir := 0, time0 := micros t } := by
  unfold advance
  rw [if_pos hr]

theorem atRest_iff (x : SwitecX25) :
    atRest x = true ↔ x.currentStep = x.targetStep ∧ x.vel = 0 := by
  unfold atRest
  exact decide_eq_true_iff

/-- The rest invariant: `stopped` set implies `dir = 0`, `vel = 0` and
`currentStep = targetStep`; `dir` is -1, 0 or +1; `vel > 0` implies
`dir != 0`.  Every `setPosition`, `update` and `zero` call keeps it. -/
theorem exec_rest (x : SwitecX25) (c : Cmd) (y : SwitecX25) (hc : c.isCommand = true)
    (h1 : x.stopped ≠ 0 → x.dir = 0 ∧ x.vel = 0 ∧ x.currentStep = x.targetStep)
    (h2 : x.dir = -1 ∨ x.dir = 0 ∨ x.dir = 1) (h3 : x.vel ≠ 0 → x.dir ≠ 0)
    (h : exec x c = some y) :
    (y.stopped ≠ 0 → y.dir = 0 ∧ y.vel = 0 ∧ y.currentStep = y.targetStep) ∧
    (y.dir = -1 ∨ y.dir = 0 ∨ y.dir = 1) ∧ (y.vel ≠ 0 → y.dir ≠ 0) := by
  cases c with
  | setPosition pos tick =>
    have hk := setPosition_keeps x pos tick
    have hs := setPosition_stopped x pos tick
    simp only [exec, Option.some.injEq] at h
    subst h
    refine ⟨fun hne => absurd hs hne, ?_, ?_⟩
    · rw [hk.2.2.2.1]
      exact h2
    · rw [hk.2.2.2.1, hk.2.2.1]
      exact h3
  | update tick tick2 =>
    simp only [exec] at h
    rcases update_cases_stopped x tick tick2 y h with e | ⟨hs, e⟩
    · subst e
      exact ⟨h1, h2, h3⟩
    · cases hr : atRest x with
      | true =>
        rw [advance_at_rest x tick2 hr, Option.some.injEq] at e
        subst e
        have := (atRest_iff x).1 hr
        exact ⟨fun _ => ⟨rfl, this.2, this.1⟩, Or.inr (Or.inl rfl), fun _ => by
          simp only [ne_eq]
          exact absurd this.2 (by assumption)⟩
      | false =>
        have hm := advance_moving x tick2 y hr e
        have hd : y.dir = -1 ∨ y.dir = 1 := by
          rw [hm.2]
          by_cases hv : x.vel = 0
          · rw [selectDir_dir_of_rest x hv]
            split
            · exact Or.inr rfl
            · exact Or.inl rfl
          · rw [selectDir_dir_of_moving x hv]
            have := h3 hv
            rcases h2 with h2 | h2 | h2
            · exact Or.inl h2
            · exact absurd h2 this
            · exact Or.inr h2
        refine ⟨fun hne => absurd (hm.1.trans hs) hne, ?_, fun _ => ?_⟩
        · rcases hd with hd | hd
          · exact Or.inl hd
          · exact Or.inr (Or.inr hd)
        · rcases hd with hd | hd <;> rw [hd] <;> decide
  | zero =>
    have hf := zero_fields x
    simp only [exec, Option.some.injEq] at h
    subst h
    refine ⟨fun _ => ⟨hf.2.2.2, hf.2.2.1, hf.1.trans hf.2.1.symm⟩, Or.inr (Or.inl hf.2.2.2),
      fun hv => absurd hf.2.2.1 hv⟩
  | stepUp => exact absurd hc (by decide)
  | stepDown => exact absurd hc (by decide)

theorem run_rest (cmds : List Cmd) (x y : SwitecX25) (hc : ∀ c ∈ cmds, c.isCommand = true)
    (h1 : x.stopped ≠ 0 → x.dir = 0 ∧ x.vel = 0 ∧ x.currentStep = x.targetStep)
    (h2 : x.dir = -1 ∨ x.dir = 0 ∨ x.dir = 1) (h3 : x.vel ≠ 0 → x.dir ≠ 0)
    (h : run cmds x = some y) :
    (y.stopped ≠ 0 → y.dir = 0 ∧ y.vel = 0 ∧ y.currentStep = y.targetStep) ∧
    (y.dir = -1 ∨ y.dir = 0 ∨ y.dir = 1) ∧ (y.vel ≠ 0 → y.dir ≠ 0) := by
  induction cmds generalizing x with
  | nil =>
    simp only [run, Option.some.injEq] at h
    subst h
    exact ⟨h1, h2, h3⟩
  | cons c cs ih =>
    simp only [run] at h
    cases hx : exec x c with
    | none => simp [hx] at h
    | some z =>
      simp only [hx] at h
      have hz := exec_rest x c z (hc c (List.mem_cons_self c cs)) h1 h2 h3 hx
      exact ih z (fun c' hc' => hc c' (List.mem_cons_of_mem c hc')) hz.1 hz.2.1 hz.2.2 h

/-- Claim C20. In every state reached from `init_stepper` by `setPosition`,
`update` and `zero` calls: `stopped` set implies `dir = 0`, `vel = 0` and
`currentStep = targetStep`; `dir` is -1, 0 or +1; `vel > 0` implies
`dir != 0`. -/
theorem stopped_implies_rest (p1 p2 p3 p4 t0 d0 : Nat) (cmds : List Cmd) (x : SwitecX25)
    (hc : ∀ c ∈ cmds, c.isCommand = true)
    (h : run cmds (init_stepper p1 p2 p3 p4 t0 d0) = some x) :
    (x.stopped ≠ 0 → x.dir = 0 ∧ x.vel = 0 ∧ x.currentStep = x.targetStep) ∧
    (x.dir = -1 ∨ x.dir = 0 ∨ x.dir = 1) ∧ (0 < x.vel → x.dir ≠ 0) := by
  have := run_rest cmds (init_stepper p1 p2 p3 p4 t0 d0) x hc (fun _ => ⟨rfl, rfl, rfl⟩)
    (Or.inr (Or.inl rfl)) (fun hv => absurd rfl hv) h
  exact ⟨this.1, this.2.1, fun hv => this.2.2 (by omega)⟩

/-- Witness for `stopped_implies_rest`: after `setPosition(5)` and `zero` the
motor is at rest on its target with `stopped` clear, so the converse of the
first part does not hold. -/
theorem stopped_implies_rest_witness :
    ∃ x, run [Cmd.setPosition 5 0, Cmd.zero] (init_stepper 1 2 4 8 0 0) = some x ∧
      (x.stopped ≠ 0 → x.dir = 0 ∧ x.vel = 0 ∧ x.currentStep = x.targetStep) ∧
      x.stopped = 0 ∧ x.dir = 0 ∧ x.vel = 0 ∧ x.currentStep = x.targetStep := by
  refine ⟨zero (setPosition (init_stepper 1 2 4 8 0 0) 5 0), rfl,
    (stopped_implies_rest 1 2 4 8 0 0 [Cmd.setPosition 5 0, Cmd.zero] _ (by decide) rfl).1, ?_, ?_⟩
  · rw [(zero_keeps _).2.2]
    exact setPosition_stopped _ 5 0
  · have hf := zero_fields (setPosition (init_stepper 1 2 4 8 0 0) 5 0)
    exact ⟨hf.2.2.2, hf.2.2.1, hf.1.trans hf.2.1.symm⟩

/-! ## The velocity law -/

theorem toInt32_sub32 (a b : Nat) (h1 : -2147483648 ≤ (a : Int) - (b : Int))
    (h2 : (a : Int) - (b : Int) < 2147483648) : toInt32 (sub32 a b) = (a : Int) - (b : Int) := by
  unfold toInt32 sub32 toU32 U32
  split <;> omega

theorem toU32_of_nonneg (r : Int) (h1 : 0 ≤ r) (h2 : r < 4294967296) : toU32 r = r.toNat := by
  unfold toU32
  omega

theorem stepDir_currentStep_le (x : SwitecX25) (h : x.currentStep < 2147483647) :
    (stepDir x).currentStep ≤ 2147483647 := by
  have hu : (stepUp x).currentStep ≤ 2147483647 := by
    unfold stepUp
    split
    · have : inc32 x.currentStep = x.currentStep + 1 := inc32_of_lt (by unfold U32; omega)
      simp only [ writeIO, this]
      omega
    · omega
  have hd : (stepDown x).currentStep ≤ 2147483647 := by
    rw [(stepDown_pos x (by unfold U32; omega)).1]
    omega
  unfold stepDir
  split <;> assumption

/-- The local `delta` is the signed distance to the target along the
direction when positions stay below `2 ^ 31`. -/
theorem delta_eq (x : SwitecX25) (hc : x.currentStep < 2147483648)
    (ht : x.targetStep < 2147483648) :
    delta x = if x.dir > 0 then (x.targetStep : Int) - (x.currentStep : Int)
      else (x.currentStep : Int) - (x.targetStep : Int) := by
  unfold delta
  split
  · exact toInt32_sub32 _ _ (by omega) (by omega)
  · exact toInt32_sub32 _ _ (by omega) (by omega)

theorem velCase_eq (x : SwitecX25) (r : Int) (hr : delta x = r) (h1 : r < 2147483649) :
    velCase x =
      if 0 < r ∧ r < (x.vel : Int) then VelCase.decel
      else if 0 < r ∧ x.vel < x.maxVel then VelCase.accel
      else if 0 < r then VelCase.cruise
      else VelCase.away := by
  unfold velCase
  rw [hr]
  by_cases h0 : 0 < r
  · have hu : toU32 r = r.toNat := toU32_of_nonneg r (by omega) (by omega)
    rw [hu]
    split_ifs <;> first | rfl | omega
  · split_ifs <;> first | rfl | omega

/-- The velocity `advanceMove` leaves, from the velocity `v` after direction
selection and the signed distance `r` after the step. -/
theorem advanceMove_vel_eq (x : SwitecX25) (hc : x.currentStep < 2147483647)
    (ht : x.targetStep < 2147483648) (hv : x.vel < U32) (hm : x.maxVel < U32) :
    delta (stepDir (selectDir x)) =
      (if (stepDir (selectDir x)).dir > 0
        then ((stepDir (selectDir x)).targetStep : Int) - ((stepDir (selectDir x)).currentStep : Int)
        else ((stepDir (selectDir x)).currentStep : Int) - ((stepDir (selectDir x)).targetStep : Int)) ∧
    (selectDir x).vel = (if x.vel = 0 then 1 else x.vel) ∧
    (advanceMove x).vel =
      (if 0 < delta (stepDir (selectDir x)) ∧
          delta (stepDir (selectDir x)) < ((selectDir x).vel : Int) then (selectDir x).vel - 1
        else if 0 < delta (stepDir (selectDir x)) ∧ (selectDir x).vel < x.maxVel
          then (selectDir x).vel + 1
        else if 0 < delta (stepDir (selectDir x)) then (selectDir x).vel
        else (selectDir x).vel - 1) := by
  have hs := selectDir_keeps x
  have hk := stepDir_keeps (selectDir x)
  have hc2 : (stepDir (selectDir x)).currentStep < 2147483648 :=
    Nat.lt_succ_of_le (stepDir_currentStep_le _ (by rw [hs.2.2.2.1]; exact hc))
  have ht2 : (stepDir (selectDir x)).targetStep < 2147483648 := by
    rw [hk.2.1, hs.2.1]; exact ht
  have hd := delta_eq _ hc2 ht2
  have hsv := selectDir_vel x
  have hv2 : (stepDir (selectDir x)).vel = (selectDir x).vel := hk.2.2.2.1
  have hm2 : (stepDir (selectDir x)).maxVel = x.maxVel := by rw [hk.2.2.1, hs.2.2.1]
  have hpos : 1 ≤ (selectDir x).vel := by rw [hsv]; split <;> omega
  have hlt : (selectDir x).vel < U32 := by rw [hsv]; split <;> [decide; exact hv]
  refine ⟨hd, hsv, ?_⟩
  have hcase := velCase_eq (stepDir (selectDir x)) _ rfl (by rw [hd]; split <;> omega)
  rw [hv2, hm2] at hcase
  unfold advanceMove
  rw [velUpdate_vel, hcase, hv2]
  have hdec : dec32 (selectDir x).vel = (selectDir x).vel - 1 := dec32_of_pos hpos hlt
  split_ifs with h1 h2 h3
  · exact hdec
  · exact inc32_of_lt (by omega)
  · rfl
  · exact hdec

theorem exec_range (x : SwitecX25) (c : Cmd) (y : SwitecX25) (hs : x.steps = 945)
    (hc : x.currentStep ≤ 945) (ht : x.targetStep < 945) (h : exec x c = some y) :
    y.steps = 945 ∧ y.currentStep ≤ 945 ∧ y.targetStep < 945 := by
  have hsU : x.steps < U32 := by rw [hs]; decide
  have hup := stepUp_pos x hsU
  have hdn := stepDown_pos x (by unfold U32; omega)
  have hup' : (stepUp x).currentStep ≤ 945 := by rw [hup.1, hs]; split <;> omega
  have hdn' : (stepDown x).currentStep ≤ 945 := by rw [hdn.1]; omega
  cases c with
  | setPosition pos tick =>
    have hk := setPosition_keeps x pos tick
    have htg := setPosition_targetStep x pos tick (by omega) hsU
    simp only [exec, Option.some.injEq] at h
    subst h
    rw [hk.1, hk.2.2.2.2.1, htg.1, hs]
    exact ⟨rfl, hc, by omega⟩
  | update tick tick2 =>
    simp only [exec] at h
    rcases update_cases x tick tick2 y h with e | e
    · subst e
      exact ⟨hs, hc, ht⟩
    · have hp := advance_pos x tick2 y e
      refine ⟨hp.1.trans hs, ?_, by rw [hp.2.1]; exact ht⟩
      rcases hp.2.2 with ⟨e1, _⟩ | ⟨e1, _⟩ | ⟨e1, _⟩ <;> rw [e1] <;> assumption
  | zero =>
    have hf := zero_fields x
    have hk := zero_keeps x
    simp only [exec, Option.some.injEq] at h
    subst h
    rw [hk.1, hf.1, hf.2.1, hs]
    exact ⟨rfl, by omega, by omega⟩
  | stepUp =>
    simp only [exec, Option.some.injEq] at h
    subst h
    exact ⟨(stepUp_keeps x).1.trans hs, hup', by rw [(stepUp_keeps x).2.1]; exact ht⟩
  | stepDown =>
    simp only [exec, Option.some.injEq] at h
    subst h
    exact ⟨(stepDown_keeps x).1.trans hs, hdn', by rw [(stepDown_keeps x).2.1]; exact ht⟩

theorem run_range (cmds : List Cmd) (x y : SwitecX25) (hs : x.steps = 945)
    (hc : x.currentStep ≤ 945) (ht : x.targetStep < 945) (h : run cmds x = some y) :
    y.steps = 945 ∧ y.currentStep ≤ 945 ∧ y.targetStep < 945 := by
  induction cmds generalizing x with
  | nil =>
    simp only [run, Option.some.injEq] at h
    subst h
    exact ⟨hs, hc, ht⟩
  | cons c cs ih =>
    simp only [run] at h
    cases hx : exec x c with
    | none => simp [hx] at h
    | some z =>
      simp only [hx] at h
      have hz := exec_range x c z hs hc ht hx
      exact ih z hz.1 hz.2.1 hz.2.2 h

/-- Claim C14. For every `advance` call that gets past the stopped test, on a
record whose position and target are below `2 ^ 31 - 1` (`vel` and `maxVel`
32-bit values): with `v` the velocity after direction selection (1 if `vel`
was 0, else `vel`) and `r` the signed distance to `targetStep` along `dir`
after the step (`targetStep - currentStep` when `dir > 0`, else
`currentStep - targetStep`), the local `delta` equals `r` and the new velocity
is `v - 1` if `0 < r < v`, `v + 1` if `0 < r`, `r >= v` and `v < maxVel`, `v`
if `0 < r`, `r >= v` and `v >= maxVel`, and `v - 1` if `r <= 0`.  Every state
reached from `init_stepper` through the interface meets the bounds
(`currentStep <= 945`, `targetStep < 945`, `vel <= maxVel = 300`). -/
theorem velocity_law :
    (∀ (x : SwitecX25) (t : Nat) (y : SwitecX25) (v : Nat) (r : Int),
      x.currentStep < 2147483647 → x.targetStep < 2147483647 → x.vel < U32 → x.maxVel < U32 →
      atRest x = false → advance x t = some y →
      v = (if x.vel = 0 then 1 else x.vel) →
      r = (if y.dir > 0 then (y.targetStep : Int) - (y.currentStep : Int)
        else (y.currentStep : Int) - (y.targetStep : Int)) →
      delta (stepDir (selectDir x)) = r ∧
      y.vel =
        (if 0 < r ∧ r < (v : Int) then v - 1
          else if 0 < r ∧ v < x.maxVel then v + 1
          else if 0 < r then v
          else v - 1)) ∧
    (∀ (p1 p2 p3 p4 t0 d0 : Nat) (cmds : List Cmd) (x : SwitecX25),
      run cmds (init_stepper p1 p2 p3 p4 t0 d0) = some x →
      x.currentStep < 2147483647 ∧ x.targetStep < 2147483647 ∧ x.vel < U32 ∧ x.maxVel < U32) := by
  constructor
  · intro x t y v r hc ht hv hm hr h hvdef hrdef
    have hlaw := advanceMove_vel_eq x hc (by omega) hv hm
    rcases (advance_some_iff x t y).1 h with ⟨h1, _⟩ | ⟨_, d, _, hy⟩
    · rw [hr] at h1
      exact absurd h1 (by decide)
    · have hk := velUpdate_keeps (stepDir (selectDir x))
      have e1 : y.dir = (stepDir (selectDir x)).dir := by
        subst hy; exact hk.2.2.2.2.1
      have e2 : y.targetStep = (stepDir (selectDir x)).targetStep := by
        subst hy; exact hk.2.1
      have e3 : y.currentStep = (stepDir (selectDir x)).currentStep := by
        subst hy; exact hk.2.2.2.1
      have e4 : y.vel = (advanceMove x).vel := by
        subst hy; rfl
      rw [e1, e2, e3] at hrdef
      rw [← hlaw.2.1] at hvdef
      rw [e4, hlaw.2.2, ← hvdef, hlaw.1, ← hrdef]
      exact ⟨rfl, rfl⟩
  · intro p1 p2 p3 p4 t0 d0 cmds x h
    have h1 := run_range cmds _ x rfl (Nat.zero_le _) (show (0 : Nat) < 945 by decide) h
    have h2 := run_vel_le cmds _ x (Nat.zero_le _) (init_stepper_maxVel p1 p2 p3 p4 t0 d0) h
    refine ⟨by omega, by omega, ?_, ?_⟩ <;> unfold U32 <;> omega

/-- Witness for `velocity_law`: in mid-motion (step 3 of 10, `vel = 4`,
`dir = 1`) the step leaves `r = 6`, and the velocity goes up to 5. -/
theorem velocity_law_witness :
    ∃ y, advance midMove 12 = some y ∧ y.vel = 5 := by
  cases h : advance midMove 12 with
  | none => exact absurd h (by decide)
  | some y =>
    have hy : (advance midMove 12).map (fun z => (z.dir, z.targetStep, z.currentStep)) =
        some (1, 10, 4) := by decide
    rw [h] at hy
    simp only [Option.map_some', Option.some.injEq, Prod.mk.injEq] at hy
    have := (velocity_law.1 midMove 12 y 4 6 (by decide) (by decide) (by decide) (by decide)
      (by decide) h (by decide) (by rw [hy.1, hy.2.1, hy.2.2]; decide)).2
    exact ⟨y, rfl, by rw [this]; decide⟩

/-! ## The velocity peak of the 500-step move -/

theorem motionRun_mem_trace (n N : Nat) (c cf : SwitecX25) (hn : n ≤ N)
    (h : motionRun n c = some cf) : cf ∈ motionTrace N c := by
  induction n generalizing N c with
  | zero =>
    simp only [motionRun, Option.some.injEq] at h
    subst h
    cases N <;> simp [motionTrace]
  | succ n ih =>
    have hs := motionRun_entered n c cf h
    cases N with
    | zero => omega
    | succ N =>
      simp only [motionRun, if_pos hs] at h
      simp only [motionTrace, if_pos hs]
      cases hstep : motionStep c with
      | none => simp [hstep] at h
      | some c2 =>
        simp only [hstep] at h ⊢
        exact List.mem_cons_of_mem _ (ih N c2 (by omega) h)

/-- Due polls from a state whose motion run stops after `N` calls: the poll
sequence returns, and the state it leaves is one of the run, the one after
`min ps.length N` calls. -/
theorem polls_motionRun_any (ps : List (Nat × Nat)) (x cf : SwitecX25) (N : Nat)
    (hd : eachDue ps x = true) (hN : motionRun N (motion x) = some cf) (hs : cf.stopped ≠ 0) :
    ∃ z, polls ps x = some z ∧ motionRun (min ps.length N) (motion x) = some (motion z) := by
  by_cases hlen : ps.length ≤ N
  · have hsum : ps.length + (N - ps.length) = N := by omega
    rw [← hsum] at hN
    obtain ⟨c2, hc2, _⟩ := motionRun_split _ _ _ _ hN
    obtain ⟨z, hz, hzm⟩ := polls_motionRun ps x c2 hd hc2
    refine ⟨z, hz, ?_⟩
    rw [Nat.min_eq_left hlen, hzm]
    exact hc2
  · have hd1 := eachDue_take N ps _ hd
    have hl : (ps.take N).length = N := by
      rw [List.length_take]
      omega
    have hN2 := hN
    rw [← hl] at hN2
    obtain ⟨z, hz, hzm⟩ := polls_motionRun (ps.take N) x cf hd1 hN2
    refine ⟨z, ?_, ?_⟩
    · rw [← List.take_append_drop N ps, polls_append, hz]
      exact polls_of_stopped _ z (by
        have : (motion z).stopped = z.stopped := rfl
        rw [← this, hzm]
        exact hs)
    · rw [Nat.min_eq_right (by omega), hzm]
      exact hN

/-- Whenever the velocity is not zero after a poll, the stored delay is the
table delay of that velocity. -/
theorem polls_delay (ps : List (Nat × Nat)) (x z : SwitecX25)
    (hx : x.vel ≠ 0 → accelDelay x.vel = some x.microDelay) (h : polls ps x = some z) :
    z.vel ≠ 0 → accelDelay z.vel = some z.microDelay := by
  induction ps generalizing x with
  | nil =>
    simp only [polls, Option.some.injEq] at h
    subst h
    exact hx
  | cons p ps ih =>
    simp only [polls] at h
    cases hu : update x p.1 p.2 with
    | none => simp [hu] at h
    | some y =>
      simp only [hu] at h
      refine ih y ?_ h
      rcases update_cases x p.1 p.2 y hu with e | e
      · rw [e]
        exact hx
      · cases hr : atRest x with
        | true =>
          rw [advance_at_rest x p.2 hr, Option.some.injEq] at e
          subst e
          intro hv
          exact absurd ((atRest_iff x).1 hr).2 hv
        | false => exact fun _ => advance_microDelay x p.2 y hr e

theorem motionTrace_homedTo500 :
    (motionTrace 503 homedTo500).all (fun c => decide (c.vel ≤ 251 ∧ c.maxVel = 300)) = true ∧
    (motionRun 250 homedTo500).map (fun c => (c.currentStep, c.vel)) = some (250, 251) ∧
    (motionRun 251 homedTo500).map (fun c => (c.currentStep, c.vel)) = some (251, 250) ∧
    (motionRun 503 homedTo500).map (fun c => c.stopped) = some 1 := by
  decide!

/-- Claim C13 as stated fails: in the run after `init_stepper`, `zero` and
`setPosition(500)`, polled every 3 ms, the 503 polls up to the stop go through
no state with `vel = 300`; the velocity stays at or below 251. -/
theorem velocity_peak_counterexample :
    (pollStates (everyThreeMs 503 1)
      (setPosition (zero (init_stepper 1 2 4 8 0 0)) 500 0)).length = 503 ∧
    (pollStates (everyThreeMs 503 1)
      (setPosition (zero (init_stepper 1 2 4 8 0 0)) 500 0)).getLast?.map
        (fun y => (y.currentStep, y.stopped)) = some (500, 1) ∧
    (pollStates (everyThreeMs 503 1)
      (setPosition (zero (init_stepper 1 2 4 8 0 0)) 500 0)).any
        (fun y => decide (y.vel = 300)) = false ∧
    (pollStates (everyThreeMs 503 1)
      (setPosition (zero (init_stepper 1 2 4 8 0 0)) 500 0)).all
        (fun y => decide (y.vel ≤ 251)) = true := by
  decide!

/-- Claim C13, amended. With `steps = 945` and the default acceleration table,
after `init_stepper`, `zero` and `setPosition(500)`, for every pin assignment
and every sequence of due polls: the velocity never exceeds 251, so it never
reaches `maxVel = 300`; after 250 polls the motor is on step 250 with
`vel = 251` and `microDelay = 600`; the next poll already decelerates to
`vel = 250`, so no poll leaves the velocity unchanged at its peak. -/
theorem velocity_peak (p1 p2 p3 p4 t0 d0 tz : Nat) (ps : List (Nat × Nat))
    (hd : eachDue ps (setPosition (zero (init_stepper p1 p2 p3 p4 t0 d0)) 500 tz) = true) :
    ∃ z, polls ps (setPosition (zero (init_stepper p1 p2 p3 p4 t0 d0)) 500 tz) = some z ∧
      z.vel ≤ 251 ∧ z.maxVel = 300 ∧
      (ps.length = 250 → z.currentStep = 250 ∧ z.vel = 251 ∧ z.microDelay = 600) ∧
      (ps.length = 251 → z.currentStep = 251 ∧ z.vel = 250) := by
  have hm := motion_homedTo500 p1 p2 p3 p4 t0 d0 tz
  obtain ⟨htr, h250, h251, h503⟩ := motionTrace_homedTo500
  cases hcf : motionRun 503 homedTo500 with
  | none => simp [hcf] at h503
  | some cf =>
    simp only [hcf, Option.map_some', Option.some.injEq] at h503
    have hN := hcf
    rw [← hm] at hN
    obtain ⟨z, hz, hzm⟩ := polls_motionRun_any ps _ cf 503 hd hN (by rw [h503]; decide)
    rw [hm] at hzm
    have hmem := motionRun_mem_trace _ 503 homedTo500 _ (Nat.min_le_right _ _) hzm
    have hv : z.vel ≤ 251 := by
      have := List.all_eq_true.1 htr _ hmem
      simp only [decide_eq_true_eq] at this
      exact this.1
    have hx0 : (setPosition (zero (init_stepper p1 p2 p3 p4 t0 d0)) 500 tz).vel = 0 := by
      rw [(setPosition_keeps _ 500 tz).2.2.1]
      exact (zero_fields _).2.2.1
    have hdelay := polls_delay ps _ z (fun h => absurd hx0 h) hz
    have hmax : z.maxVel = 300 := by
      have := List.all_eq_true.1 htr _ hmem
      simp only [decide_eq_true_eq] at this
      exact this.2
    refine ⟨z, hz, hv, hmax, ?_, ?_⟩
    · intro hl
      rw [hl] at hzm
      rw [show min 250 503 = 250 from rfl] at hzm
      rw [hzm] at h250
      simp only [Option.map_some', Option.some.injEq, Prod.mk.injEq] at h250
      have hc : z.currentStep = 250 := h250.1
      have hv2 : z.vel = 251 := h250.2
      refine ⟨hc, hv2, ?_⟩
      have := hdelay (by rw [hv2]; decide)
      rw [hv2, accelDelay_table 251 (by decide)] at this
      simp only [Option.some.injEq] at this
      rw [← this]
      decide
    · intro hl
      rw [hl] at hzm
      rw [show min 251 503 = 251 from rfl] at hzm
      rw [hzm] at h251
      simp only [Option.map_some', Option.some.injEq, Prod.mk.injEq] at h251
      exact h251

/-- Witness for `velocity_peak`: 250 polls, 3 ms apart, after homing and
commanding position 500 at tick 0. -/
theorem velocity_peak_witness :
    ∃ z, polls (everyThreeMs 250 1) (setPosition (zero (init_stepper 1 2 4 8 0 0)) 500 0) = some z ∧
      z.currentStep = 250 ∧ z.vel = 251 ∧ z.microDelay = 600 := by
  obtain ⟨z, hz, _, _, h, _⟩ := velocity_peak 1 2 4 8 0 0 0 (everyThreeMs 250 1) (by decide!)
  exact ⟨z, hz, h (everyThreeMs_length 250 1)⟩

/-! ## One call of `advance`, field by field -/

theorem velNext_le (r : Int) (v : Nat) (h : v ≤ 300) : velNext 300 r v ≤ 300 := by
  unfold velNext
  split_ifs <;> omega

/-- A call of `advance` that gets past the stopped test, on a record within
the 31-bit range with `vel <= maxVel = 300`: it returns, and the fields of the
result are those of the step taken and of `velNext`. -/
theorem advance_fields (x : SwitecX25) (t : Nat) (hr : atRest x = false)
    (hc : x.currentStep < 2147483647) (ht : x.targetStep < 2147483647)
    (hm : x.maxVel = 300) (hv : x.vel ≤ 300) :
    ∃ y, advance x t = some y ∧ y.steps = x.steps ∧ y.maxVel = 300 ∧
      y.targetStep = x.targetStep ∧ y.stopped = x.stopped ∧ y.dir = (selectDir x).dir ∧
      y.currentStep = (stepDir (selectDir x)).currentStep ∧
      y.vel = velNext 300 (delta (stepDir (selectDir x))) (selectDir x).vel := by
  have hlaw := advanceMove_vel_eq x hc (by omega) (by unfold U32; omega)
    (by rw [hm]; decide)
  have hvel : (advanceMove x).vel =
      velNext 300 (delta (stepDir (selectDir x))) (selectDir x).vel := by
    rw [hlaw.2.2, hm]
    rfl
  have hsv : (selectDir x).vel ≤ 300 := by
    rw [hlaw.2.1]
    split <;> omega
  obtain ⟨d, hd⟩ := accelDelay_of_le (advanceMove x).vel (by
    rw [hvel]
    exact velNext_le _ _ hsv)
  have hk := advanceMove_keeps x
  refine ⟨{ advanceMove x with microDelay := d, time0 := micros t }, ?_, hk.1, hk.2.2.1.trans hm,
    hk.2.1, hk.2.2.2.1, hk.2.2.2.2.2, (advanceMove_pos x).1, hvel⟩
  unfold advance
  rw [hr]
  simp only [Bool.false_eq_true, if_false, hd]

/-- A call of `advance` heading up: the record is moving up with velocity `v`,
or at rest below the target (then `v = 1`), and below `steps`. -/
theorem advance_up (x : SwitecX25) (t : Nat) (p T v : Nat) (hS : x.steps < 2147483647)
    (hm : x.maxVel = 300) (hT : x.targetStep = T) (hp : x.currentStep = p) (hpS : p < x.steps)
    (hTS : T < x.steps) (hv : v ≤ 300)
    (hh : (x.vel = v ∧ 1 ≤ v ∧ x.dir = 1) ∨ (x.vel = 0 ∧ v = 1 ∧ p < T)) :
    ∃ y, advance x t = some y ∧ y.steps = x.steps ∧ y.maxVel = 300 ∧ y.targetStep = T ∧
      y.stopped = x.stopped ∧ y.dir = 1 ∧ y.currentStep = p + 1 ∧
      y.vel = velNext 300 ((T : Int) - ((p : Int) + 1)) v := by
  have hr : atRest x = false := by
    cases h : atRest x with
    | false => rfl
    | true =>
      have := (atRest_iff x).1 h
      rcases hh with ⟨h1, h2, _⟩ | ⟨_, _, h3⟩ <;> omega
  have hsk := selectDir_keeps x
  have hsv : (selectDir x).vel = v := by
    rw [selectDir_vel]
    rcases hh with ⟨h1, h2, _⟩ | ⟨h1, h2, _⟩
    · rw [if_neg (by omega), h1]
    · rw [if_pos h1, h2]
  have hsd : (selectDir x).dir = 1 := by
    rcases hh with ⟨h1, h2, h3⟩ | ⟨h1, _, h3⟩
    · rw [selectDir_dir_of_moving x (by omega), h3]
    · rw [selectDir_dir_of_rest x h1, if_pos (by omega)]
  have hkd := stepDir_keeps (selectDir x)
  have hpos : (stepDir (selectDir x)).currentStep = p + 1 := by
    unfold stepDir
    rw [if_pos (by rw [hsd]; decide),
      (stepUp_pos (selectDir x) (by rw [hsk.1]; unfold U32; omega)).1, hsk.2.2.2.1, hsk.1,
      if_pos (by omega), hp]
  have hdelta : delta (stepDir (selectDir x)) = (T : Int) - ((p : Int) + 1) := by
    rw [delta_eq _ (by rw [hpos]; omega) (by rw [hkd.2.1, hsk.2.1]; omega), hkd.2.2.2.2.1, hsd,
      if_pos (by decide), hkd.2.1, hsk.2.1, hT, hpos]
    omega
  obtain ⟨y, hy, h1, h2, h3, h4, h5, h6, h7⟩ := advance_fields x t hr (by omega) (by omega) hm
    (by rcases hh with ⟨h1, _, _⟩ | ⟨h1, _, _⟩ <;> omega)
  exact ⟨y, hy, h1, h2, h3.trans hT, h4, h5.trans hsd, h6.trans hpos, by rw [h7, hdelta, hsv]⟩

/-- A call of `advance` heading down: the record is moving down with velocity
`v`, or at rest above the target (then `v = 1`); at position 0 the step is
the no-op of `stepDown`. -/
theorem advance_down (x : SwitecX25) (t : Nat) (p T v : Nat) (hS : x.steps < 2147483647)
    (hm : x.maxVel = 300) (hT : x.targetStep = T) (hp : x.currentStep = p) (hpS : p ≤ x.steps)
    (hTS : T < x.steps) (hv : v ≤ 300)
    (hh : (x.vel = v ∧ 1 ≤ v ∧ x.dir = -1) ∨ (x.vel = 0 ∧ v = 1 ∧ T < p)) :
    ∃ y, advance x t = some y ∧ y.steps = x.steps ∧ y.maxVel = 300 ∧ y.targetStep = T ∧
      y.stopped = x.stopped ∧ y.dir = -1 ∧ y.currentStep = p - 1 ∧
      y.vel = velNext 300 (((p - 1 : Nat) : Int) - (T : Int)) v := by
  have hr : atRest x = false := by
    cases h : atRest x with
    | false => rfl
    | true =>
      have := (atRest_iff x).1 h
      rcases hh with ⟨h1, h2, _⟩ | ⟨_, _, h3⟩ <;> omega
  have hsk := selectDir_keeps x
  have hsv : (selectDir x).vel = v := by
    rw [selectDir_vel]
    rcases hh with ⟨h1, h2, _⟩ | ⟨h1, h2, _⟩
    · rw [if_neg (by omega), h1]
    · rw [if_pos h1, h2]
  have hsd : (selectDir x).dir = -1 := by
    rcases hh with ⟨h1, h2, h3⟩ | ⟨h1, _, h3⟩
    · rw [selectDir_dir_of_moving x (by omega), h3]
    · rw [selectDir_dir_of_rest x h1, if_neg (by omega)]
  have hkd := stepDir_keeps (selectDir x)
  have hpos : (stepDir (selectDir x)).currentStep = p - 1 := by
    unfold stepDir
    rw [if_neg (by rw [hsd]; decide),
      (stepDown_pos (selectDir x) (by rw [hsk.2.2.2.1]; unfold U32; omega)).1, hsk.2.2.2.1, hp]
  have hdelta : delta (stepDir (selectDir x)) = ((p - 1 : Nat) : Int) - (T : Int) := by
    rw [delta_eq _ (by rw [hpos]; omega) (by rw [hkd.2.1, hsk.2.1]; omega), hkd.2.2.2.2.1, hsd,
      if_neg (by decide), hkd.2.1, hsk.2.1, hT, hpos]
  obtain ⟨y, hy, h1, h2, h3, h4, h5, h6, h7⟩ := advance_fields x t hr (by omega) (by omega) hm
    (by rcases hh with ⟨h1, _, _⟩ | ⟨h1, _, _⟩ <;> omega)
  exact ⟨y, hy, h1, h2, h3.trans hT, h4, h5.trans hsd, h6.trans hpos, by rw [h7, hdelta, hsv]⟩

/-! ## Every move from rest ends on the target -/

theorem restWithin_of_atRest (x : SwitecX25) (N : Nat) (hN : 1 ≤ N) (h : atRest x = true) :
    RestWithin N x :=
  fun ts _ => ⟨0, hN, x, by rw [List.take_zero]; rfl, h, rfl⟩

theorem restWithin_step (x : SwitecX25) (N : Nat)
    (h : ∀ t, ∃ y, advance x t = some y ∧ y.targetStep = x.targetStep ∧ RestWithin N y) :
    RestWithin (N + 1) x := by
  intro ts hlen
  cases ts with
  | nil => simp at hlen
  | cons t ts =>
    obtain ⟨y, hy, hT, hR⟩ := h t
    obtain ⟨n, hn, z, hz, hr, hzT⟩ := hR ts (by simpa using hlen)
    refine ⟨n + 1, by omega, z, ?_, hr, hzT.trans hT⟩
    simp only [List.take_succ_cons, advances, hy]
    exact hz

theorem restWithin_mono (x : SwitecX25) (N M : Nat) (h : N ≤ M) (hR : RestWithin N x) :
    RestWithin M x := by
  intro ts hlen
  obtain ⟨n, hn, rest⟩ := hR ts (by omega)
  exact ⟨n, by omega, rest⟩

theorem velNext_eq_zero (r : Int) (v : Nat) (hv : 1 ≤ v) (h : velNext 300 r v = 0) :
    r ≤ 0 ∧ v = 1 := by
  unfold velNext at h
  split_ifs at h <;> omega

theorem velNext_le_succ (r v : Nat) (hv : v ≤ r + 2) : velNext 300 (r : Int) v ≤ r + 1 := by
  unfold velNext
  split_ifs <;> omega

theorem velNext_of_nonpos (r : Int) (v : Nat) (h : r ≤ 0) : velNext 300 r v = v - 1 := by
  unfold velNext
  split_ifs <;> omega

/-- Heading up with velocity `v` at distance `r` from the target, `v <= r + 1`:
the stopped return is reached within `r + 3` calls. -/
theorem up_restWithin (S : Nat) (hS : S < 2147483647) (r : Nat) :
    ∀ (x : SwitecX25) (T p v : Nat), x.steps = S → x.maxVel = 300 → x.targetStep = T →
      x.currentStep = p → T < S → p + r = T → v ≤ 300 → v ≤ r + 1 →
      ((x.vel = v ∧ 1 ≤ v ∧ x.dir = 1) ∨ (x.vel = 0 ∧ v = 1 ∧ p < T)) →
      RestWithin (r + 3) x := by
  induction r with
  | zero =>
    intro x T p v hs hm hT hp hTS hpr hv hvr hh
    have hv1 : x.vel = 1 ∧ x.dir = 1 ∧ v = 1 := by
      rcases hh with ⟨h1, h2, h3⟩ | ⟨_, _, h3⟩
      · exact ⟨by omega, h3, by omega⟩
      · omega
    refine restWithin_step x 2 (fun t => ?_)
    obtain ⟨y, hy, y1, y2, y3, _, y5, y6, y7⟩ := advance_up x t p T 1 (by omega) hm hT hp
      (by omega) (by omega) (by omega) (Or.inl ⟨hv1.1, Nat.le_refl 1, hv1.2.1⟩)
    rw [velNext_of_nonpos _ _ (by omega)] at y7
    refine ⟨y, hy, y3.trans hT.symm, restWithin_step y 1 (fun t2 => ?_)⟩
    obtain ⟨z, hz, z1, z2, z3, _, z5, z6, z7⟩ := advance_down y t2 (p + 1) T 1 (by omega) y2 y3 y6
      (by omega) (by omega) (by omega) (Or.inr ⟨y7, rfl, by omega⟩)
    rw [velNext_of_nonpos _ _ (by omega)] at z7
    refine ⟨z, hz, z3.trans y3.symm, restWithin_of_atRest z 1 (Nat.le_refl 1) ?_⟩
    exact (atRest_iff z).2 ⟨by rw [z6, z3]; omega, z7⟩
  | succ r ih =>
    intro x T p v hs hm hT hp hTS hpr hv hvr hh
    have hv1 : 1 ≤ v := by
      rcases hh with ⟨_, h2, _⟩ | ⟨_, h2, _⟩ <;> omega
    refine restWithin_step x (r + 3) (fun t => ?_)
    obtain ⟨y, hy, y1, y2, y3, _, y5, y6, y7⟩ := advance_up x t p T v (by omega) hm hT hp
      (by omega) (by omega) hv hh
    have hr : (T : Int) - ((p : Int) + 1) = (r : Int) := by omega
    rw [hr] at y7
    refine ⟨y, hy, y3.trans hT.symm, ?_⟩
    by_cases h0 : velNext 300 (r : Int) v = 0
    · have := velNext_eq_zero _ _ hv1 h0
      refine restWithin_mono y 1 (r + 3) (by omega) (restWithin_of_atRest y 1 (Nat.le_refl 1) ?_)
      exact (atRest_iff y).2 ⟨by rw [y6, y3]; omega, by rw [y7, h0]⟩
    · exact ih y T (p + 1) (velNext 300 (r : Int) v) (y1.trans hs) y2 y3 y6 hTS (by omega)
        (velNext_le _ _ hv) (velNext_le_succ r v (by omega)) (Or.inl ⟨y7, by omega, y5⟩)

/-- Heading down with velocity `v` at distance `r` from the target,
`v <= r + 1`: the stopped return is reached within `r + 3` calls. -/
theorem down_restWithin (S : Nat) (hS : S < 2147483647) (r : Nat) :
    ∀ (x : SwitecX25) (T p v : Nat), x.steps = S → x.maxVel = 300 → x.targetStep = T →
      x.currentStep = p → T < S → p ≤ S → T + r = p → v ≤ 300 → v ≤ r + 1 →
      ((x.vel = v ∧ 1 ≤ v ∧ x.dir = -1) ∨ (x.vel = 0 ∧ v = 1 ∧ T < p)) →
      RestWithin (r + 3) x := by
  induction r with
  | zero =>
    intro x T p v hs hm hT hp hTS hpS hpr hv hvr hh
    have hv1 : x.vel = 1 ∧ x.dir = -1 ∧ v = 1 := by
      rcases hh with ⟨h1, h2, h3⟩ | ⟨_, _, h3⟩
      · exact ⟨by omega, h3, by omega⟩
      · omega
    refine restWithin_step x 2 (fun t => ?_)
    obtain ⟨y, hy, y1, y2, y3, _, y5, y6, y7⟩ := advance_down x t p T 1 (by omega) hm hT hp
      (by omega) (by omega) (by omega) (Or.inl ⟨hv1.1, Nat.le_refl 1, hv1.2.1⟩)
    rw [velNext_of_nonpos _ _ (by omega)] at y7
    refine ⟨y, hy, y3.trans hT.symm, ?_⟩
    by_cases hT0 : T = 0
    · refine restWithin_mono y 1 2 (by omega) (restWithin_of_atRest y 1 (Nat.le_refl 1) ?_)
      exact (atRest_iff y).2 ⟨by rw [y6, y3]; omega, y7⟩
    · refine restWithin_step y 1 (fun t2 => ?_)
      obtain ⟨z, hz, z1, z2, z3, _, z5, z6, z7⟩ := advance_up y t2 (p - 1) T 1 (by omega) y2 y3 y6
        (by omega) (by omega) (by omega) (Or.inr ⟨y7, rfl, by omega⟩)
      rw [velNext_of_nonpos _ _ (by omega)] at z7
      refine ⟨z, hz, z3.trans y3.symm, restWithin_of_atRest z 1 (Nat.le_refl 1) ?_⟩
      exact (atRest_iff z).2 ⟨by rw [z6, z3]; omega, z7⟩
  | succ r ih =>
    intro x T p v hs hm hT hp hTS hpS hpr hv hvr hh
    have hv1 : 1 ≤ v := by
      rcases hh with ⟨_, h2, _⟩ | ⟨_, h2, _⟩ <;> omega
    refine restWithin_step x (r + 3) (fun t => ?_)
    obtain ⟨y, hy, y1, y2, y3, _, y5, y6, y7⟩ := advance_down x t p T v (by omega) hm hT hp
      (by omega) (by omega) hv hh
    have hr : (((p - 1 : Nat) : Int)) - (T : Int) = (r : Int) := by omega
    rw [hr] at y7
    refine ⟨y, hy, y3.trans hT.symm, ?_⟩
    by_cases h0 : velNext 300 (r : Int) v = 0
    · have := velNext_eq_zero _ _ hv1 h0
      refine restWithin_mono y 1 (r + 3) (by omega) (restWithin_of_atRest y 1 (Nat.le_refl 1) ?_)
      exact (atRest_iff y).2 ⟨by rw [y6, y3]; omega, by rw [y7, h0]⟩
    · exact ih y T (p - 1) (velNext 300 (r : Int) v) (y1.trans hs) y2 y3 y6 hTS (by omega)
        (by omega) (velNext_le _ _ hv) (velNext_le_succ r v (by omega))
        (Or.inl ⟨y7, by omega, y5⟩)

/-- Claim C18. For every record with `vel = 0`, `maxVel = 300`, `steps = 945`,
`currentStep < steps` and `targetStep < steps`, and for all clock readings:
among the first `|targetStep - currentStep| + 3` calls of `advance` one is
entered at rest on the target and takes the stopped return; a call entered at
rest returns with `currentStep = targetStep`, `vel = 0`, `dir = 0` and
`stopped = 1`. -/
theorem move_ends_on_target (x : SwitecX25) (hv : x.vel = 0) (hm : x.maxVel = 300)
    (hs : x.steps = 945) (hc : x.currentStep < 945) (ht : x.targetStep < 945) :
    RestWithin (((x.targetStep : Int) - (x.currentStep : Int)).natAbs + 3) x ∧
    (∀ (y : SwitecX25) (t : Nat), atRest y = true →
      ∃ z, advance y t = some z ∧ z.currentStep = y.targetStep ∧ z.targetStep = y.targetStep ∧
        z.vel = 0 ∧ z.dir = 0 ∧ z.stopped = 1) := by
  constructor
  · rcases Nat.lt_trichotomy x.currentStep x.targetStep with h | h | h
    · have hd : ((x.targetStep : Int) - (x.currentStep : Int)).natAbs =
          x.targetStep - x.currentStep := by omega
      rw [hd]
      exact up_restWithin 945 (by decide) (x.targetStep - x.currentStep) x x.targetStep
        x.currentStep 1 hs hm rfl rfl ht (by omega) (by decide) (by omega)
        (Or.inr ⟨hv, rfl, h⟩)
    · exact restWithin_mono x 1 _ (by omega)
        (restWithin_of_atRest x 1 (Nat.le_refl 1) ((atRest_iff x).2 ⟨h, hv⟩))
    · have hd : ((x.targetStep : Int) - (x.currentStep : Int)).natAbs =
          x.currentStep - x.targetStep := by omega
      rw [hd]
      exact down_restWithin 945 (by decide) (x.currentStep - x.targetStep) x x.targetStep
        x.currentStep 1 hs hm rfl rfl ht (by omega) (by omega) (by decide) (by omega)
        (Or.inr ⟨hv, rfl, h⟩)
  · intro y t hr
    have h := (atRest_iff y).1 hr
    exact ⟨_, advance_at_rest y t hr, h.1, rfl, h.2, rfl, rfl⟩

/-- Witness for `move_ends_on_target`: from rest on step 944 towards 100. -/
theorem move_ends_on_target_witness :
    RestWithin 847 { restAtTop with targetStep := 100 } :=
  (move_ends_on_target { restAtTop with targetStep := 100 } (by decide) (by decide) (by decide)
    (by decide) (by decide)).1

/-! ## The overshoot on even distances -/

theorem advances_append (a b : List Nat) (x : SwitecX25) :
    advances (a ++ b) x = (advances a x).bind (advances b) := by
  induction a generalizing x with
  | nil => rfl
  | cons t a ih =>
    simp only [List.cons_append, advances]
    cases advance x t with
    | none => rfl
    | some y => exact ih y

theorem velNext_accel (r : Int) (v : Nat) (h0 : 0 < r) (h1 : (v : Int) ≤ r) (h2 : v < 300) :
    velNext 300 r v = v + 1 := by
  unfold velNext
  split_ifs <;> omega

theorem velNext_decel (r : Int) (v : Nat) (h1 : r < (v : Int)) : velNext 300 r v = v - 1 := by
  unfold velNext
  split_ifs <;> omega

/-- Acceleration phase heading up: `j` calls, each with the distance left at
least the velocity, raise position and velocity by `j`. -/
theorem up_accel (S : Nat) (hS : S < 2147483647) (j : Nat) :
    ∀ (x : SwitecX25) (T p v : Nat), x.steps = S → x.maxVel = 300 → x.targetStep = T →
      x.currentStep = p → T < S → v + j ≤ 300 → p + j + (v + j - 1) ≤ T → p + j < T →
      ((x.vel = v ∧ 1 ≤ v ∧ x.dir = 1) ∨ (x.vel = 0 ∧ v = 1 ∧ p < T)) →
      ∀ ts : List Nat, ts.length = j →
        ∃ y, advances ts x = some y ∧ y.steps = S ∧ y.maxVel = 300 ∧ y.targetStep = T ∧
          y.currentStep = p + j ∧
          ((y.vel = v + j ∧ 1 ≤ v + j ∧ y.dir = 1) ∨ (y.vel = 0 ∧ v + j = 1 ∧ p + j < T)) := by
  induction j with
  | zero =>
    intro x T p v hs hm hT hp hTS _ _ _ hh ts hlen
    have : ts = [] := List.length_eq_zero.1 hlen
    subst this
    exact ⟨x, rfl, hs, hm, hT, hp, hh⟩
  | succ j ih =>
    intro x T p v hs hm hT hp hTS hvj hacc hlt hh ts hlen
    have hv1 : 1 ≤ v := by
      rcases hh with ⟨_, h2, _⟩ | ⟨_, h2, _⟩ <;> omega
    cases ts with
    | nil => simp at hlen
    | cons t ts =>
      obtain ⟨y, hy, y1, y2, y3, _, y5, y6, y7⟩ := advance_up x t p T v (by omega) hm hT hp
        (by omega) (by omega) (by omega) hh
      rw [velNext_accel _ _ (by omega) (by omega) (by omega)] at y7
      obtain ⟨z, hz, z1, z2, z3, z4, z5⟩ := ih y T (p + 1) (v + 1) (y1.trans hs) y2 y3 y6 hTS
        (by omega) (by omega) (by omega) (Or.inl ⟨y7, by omega, y5⟩) ts (by simpa using hlen)
      refine ⟨z, ?_, z1, z2, z3, by omega, ?_⟩
      · simp only [advances, hy]
        exact hz
      · rcases z5 with ⟨a, b, c⟩ | ⟨a, b, c⟩
        · exact Or.inl ⟨by omega, by omega, c⟩
        · omega

/-- Deceleration phase heading up with `vel = distance + 1`: `j` calls, `j` at
most the distance, raise the position and lower the velocity by `j`. -/
theorem up_decel (S : Nat) (hS : S < 2147483647) (j : Nat) :
    ∀ (x : SwitecX25) (T p v : Nat), x.steps = S → x.maxVel = 300 → x.targetStep = T →
      x.currentStep = p → T < S → v ≤ 300 → p + v = T + 1 → p + j ≤ T →
      x.vel = v → x.dir = 1 →
      ∀ ts : List Nat, ts.length = j →
        ∃ y, advances ts x = some y ∧ y.steps = S ∧ y.maxVel = 300 ∧ y.targetStep = T ∧
          y.currentStep = p + j ∧ y.vel = v - j ∧ y.dir = 1 := by
  induction j with
  | zero =>
    intro x T p v hs hm hT hp hTS _ _ _ hxv hxd ts hlen
    have : ts = [] := List.length_eq_zero.1 hlen
    subst this
    exact ⟨x, rfl, hs, hm, hT, hp, hxv, hxd⟩
  | succ j ih =>
    intro x T p v hs hm hT hp hTS hv hpv hpj hxv hxd ts hlen
    cases ts with
    | nil => simp at hlen
    | cons t ts =>
      obtain ⟨y, hy, y1, y2, y3, _, y5, y6, y7⟩ := advance_up x t p T v (by omega) hm hT hp
        (by omega) (by omega) hv (Or.inl ⟨hxv, by omega, hxd⟩)
      rw [velNext_decel _ _ (by omega)] at y7
      obtain ⟨z, hz, z1, z2, z3, z4, z5, z6⟩ := ih y T (p + 1) (v - 1) (y1.trans hs) y2 y3 y6 hTS
        (by omega) (by omega) (by omega) y7 y5 ts (by simpa using hlen)
      refine ⟨z, ?_, z1, z2, z3, by omega, by omega, z6⟩
      simp only [advances, hy]
      exact hz

theorem advances_single (t : Nat) (x : SwitecX25) : advances [t] x = advance x t := by
  simp only [advances]
  cases advance x t <;> rfl

theorem advances_succ (ts : List Nat) (k : Nat) (x : SwitecX25) (h : ts.length = k + 1) :
    ∃ t, advances ts x = (advances (ts.take k) x).bind (fun y => advance y t) := by
  have hd : (ts.drop k).length = 1 := by
    rw [List.length_drop]
    omega
  obtain ⟨t, ht⟩ := List.length_eq_one.1 hd
  refine ⟨t, ?_⟩
  have hsplit : advances ts x = advances (ts.take k ++ ts.drop k) x := by
    rw [List.take_append_drop]
  rw [hsplit, advances_append, ht]
  cases advances (ts.take k) x with
  | none => rfl
  | some y => exact advances_single t y

/-- The first `k <= D` calls of a move up over an even distance `D = 2 m`,
`m <= 299`, from rest: the position is `currentStep + k`, and from the first
call on `dir = 1` and the velocity is `k + 1` up to the half-way point `m` and
`D + 1 - k` after it. -/
theorem even_trajectory (x : SwitecX25) (m : Nat) (hv : x.vel = 0) (hm : x.maxVel = 300)
    (hS : x.steps < 2147483647) (hT : x.targetStep < x.steps)
    (hD : x.targetStep = x.currentStep + 2 * m) (h1 : 1 ≤ m) (h299 : m ≤ 299)
    (ts : List Nat) (hlen : ts.length ≤ 2 * m) :
    ∃ y, advances ts x = some y ∧ y.steps = x.steps ∧ y.maxVel = 300 ∧
      y.targetStep = x.targetStep ∧ y.currentStep = x.currentStep + ts.length ∧
      (1 ≤ ts.length → y.dir = 1 ∧
        y.vel = if ts.length ≤ m then ts.length + 1 else 2 * m + 1 - ts.length) := by
  by_cases hk : ts.length ≤ m
  · obtain ⟨y, hy, y1, y2, y3, y4, y5⟩ := up_accel x.steps hS ts.length x x.targetStep
      x.currentStep 1 rfl hm rfl rfl hT (by omega) (by omega) (by omega)
      (Or.inr ⟨hv, rfl, by omega⟩) ts rfl
    refine ⟨y, hy, y1, y2, y3, y4, fun hpos => ?_⟩
    rw [if_pos hk]
    rcases y5 with ⟨a, _, c⟩ | ⟨_, b, _⟩
    · exact ⟨c, by omega⟩
    · omega
  · have hl1 : (ts.take m).length = m := by
      rw [List.length_take]
      omega
    have hl2 : (ts.drop m).length = ts.length - m := List.length_drop m ts
    obtain ⟨y, hy, y1, y2, y3, y4, y5⟩ := up_accel x.steps hS m x x.targetStep
      x.currentStep 1 rfl hm rfl rfl hT (by omega) (by omega) (by omega)
      (Or.inr ⟨hv, rfl, by omega⟩) (ts.take m) hl1
    have y5' : y.vel = 1 + m ∧ y.dir = 1 := by
      rcases y5 with ⟨a, _, c⟩ | ⟨_, b, _⟩
      · exact ⟨a, c⟩
      · omega
    obtain ⟨z, hz, z1, z2, z3, z4, z5, z6⟩ := up_decel x.steps hS (ts.length - m) y x.targetStep
      (x.currentStep + m) (1 + m) y1 y2 y3 y4 hT (by omega) (by omega) (by omega) y5'.1 y5'.2
      (ts.drop m) hl2
    refine ⟨z, ?_, z1, z2, z3, by omega, fun _ => ⟨z6, ?_⟩⟩
    · have hsplit : advances ts x = advances (ts.take m ++ ts.drop m) x := by
        rw [List.take_append_drop]
      rw [hsplit, advances_append, hy]
      exact hz
    · rw [if_neg hk, z5]
      omega

/-- Claim C19. For every rest state (`vel = 0`) with `maxVel = 300` whose target
lies an even distance `D`, `2 <= D <= 598`, above `currentStep` and below
`steps` (`steps` below `2 ^ 31 - 1`), and for all clock readings: the first
`D + 1` calls of `advance` each move one step up; after `D` calls the motor is
on the target with `vel = 1` and `dir = 1`; the next call takes it to
`targetStep + 1` with `vel = 0`; the call after reverses (`dir = -1`) and
steps back onto the target with `vel = 0`; the next call is the stopped
return (`dir = 0`, `stopped = 1`). -/
theorem even_overshoot (x : SwitecX25) (D : Nat) (hv : x.vel = 0) (hm : x.maxVel = 300)
    (hS : x.steps < 2147483647) (hT : x.targetStep < x.steps)
    (hD : x.targetStep = x.currentStep + D) (heven : D % 2 = 0) (h2 : 2 ≤ D) (h598 : D ≤ 598)
    (ts : List Nat) :
    (ts.length ≤ D + 1 → ∃ y, advances ts x = some y ∧
      y.currentStep = x.currentStep + ts.length) ∧
    (ts.length = D → ∃ y, advances ts x = some y ∧
      y.currentStep = x.targetStep ∧ y.vel = 1 ∧ y.dir = 1) ∧
    (ts.length = D + 1 → ∃ y, advances ts x = some y ∧
      y.currentStep = x.targetStep + 1 ∧ y.vel = 0 ∧ y.dir = 1) ∧
    (ts.length = D + 2 → ∃ y, advances ts x = some y ∧
      y.currentStep = x.targetStep ∧ y.vel = 0 ∧ y.dir = -1) ∧
    (ts.length = D + 3 → ∃ y, advances ts x = some y ∧
      y.currentStep = x.targetStep ∧ y.vel = 0 ∧ y.dir = 0 ∧ y.stopped = 1) := by
  have hDm : D = 2 * (D / 2) := by omega
  have traj := fun (l : List Nat) (hl : l.length ≤ 2 * (D / 2)) =>
    even_trajectory x (D / 2) hv hm hS hT (by omega) (by omega) (by omega) l hl
  -- the state after `D` calls
  have atD : ∀ l : List Nat, l.length = D → ∃ y, advances l x = some y ∧ y.steps = x.steps ∧
      y.maxVel = 300 ∧ y.targetStep = x.targetStep ∧ y.currentStep = x.targetStep ∧
      y.vel = 1 ∧ y.dir = 1 := by
    intro l hl
    obtain ⟨y, hy, y1, y2, y3, y4, y5⟩ := traj l (by omega)
    have := y5 (by omega)
    refine ⟨y, hy, y1, y2, y3, by omega, ?_, this.1⟩
    rw [this.2, if_neg (by omega)]
    omega
  -- the state after `D + 1` calls
  have atD1 : ∀ l : List Nat, l.length = D + 1 → ∃ y, advances l x = some y ∧
      y.steps = x.steps ∧ y.maxVel = 300 ∧ y.targetStep = x.targetStep ∧
      y.currentStep = x.targetStep + 1 ∧ y.vel = 0 ∧ y.dir = 1 := by
    intro l hl
    obtain ⟨t, ht⟩ := advances_succ l D x hl
    obtain ⟨y, hy, y1, y2, y3, y4, y5, y6⟩ := atD (l.take D) (by rw [List.length_take]; omega)
    obtain ⟨z, hz, z1, z2, z3, _, z5, z6, z7⟩ := advance_up y t x.targetStep x.targetStep 1
      (by omega) y2 y3 y4 (by omega) (by omega) (by omega) (Or.inl ⟨y5, Nat.le_refl 1, y6⟩)
    rw [velNext_of_nonpos _ _ (by omega)] at z7
    exact ⟨z, by rw [ht, hy]; exact hz, z1.trans y1, z2, z3, z6, z7, z5⟩
  -- the state after `D + 2` calls
  have atD2 : ∀ l : List Nat, l.length = D + 2 → ∃ y, advances l x = some y ∧
      y.targetStep = x.targetStep ∧ y.currentStep = x.targetStep ∧ y.vel = 0 ∧ y.dir = -1 := by
    intro l hl
    obtain ⟨t, ht⟩ := advances_succ l (D + 1) x hl
    obtain ⟨y, hy, y1, y2, y3, y4, y5, y6⟩ := atD1 (l.take (D + 1))
      (by rw [List.length_take]; omega)
    obtain ⟨z, hz, z1, z2, z3, _, z5, z6, z7⟩ := advance_down y t (x.targetStep + 1)
      x.targetStep 1 (by omega) y2 y3 y4 (by omega) (by omega) (by omega)
      (Or.inr ⟨y5, rfl, by omega⟩)
    rw [velNext_of_nonpos _ _ (by omega)] at z7
    exact ⟨z, by rw [ht, hy]; exact hz, z3, by omega, z7, z5⟩
  refine ⟨fun hl => ?_, fun hl => ?_, fun hl => ?_, fun hl => ?_, fun hl => ?_⟩
  · by_cases hle : ts.length ≤ D
    · obtain ⟨y, hy, _, _, _, y4, _⟩ := traj ts (by omega)
      exact ⟨y, hy, y4⟩
    · obtain ⟨y, hy, _, _, _, y4, _⟩ := atD1 ts (by omega)
      exact ⟨y, hy, by omega⟩
  · obtain ⟨y, hy, _, _, _, y4, y5, y6⟩ := atD ts hl
    exact ⟨y, hy, y4, y5, y6⟩
  · obtain ⟨y, hy, _, _, _, y4, y5, y6⟩ := atD1 ts hl
    exact ⟨y, hy, y4, y5, y6⟩
  · obtain ⟨y, hy, _, y4, y5, y6⟩ := atD2 ts hl
    exact ⟨y, hy, y4, y5, y6⟩
  · obtain ⟨t, ht⟩ := advances_succ ts (D + 2) x hl
    obtain ⟨y, hy, y3, y4, y5, _⟩ := atD2 (ts.take (D + 2)) (by rw [List.length_take]; omega)
    have hr : atRest y = true := (atRest_iff y).2 ⟨by rw [y4, y3], y5⟩
    refine ⟨{ y with stopped := 1, dir := 0, time0 := micros t }, ?_, y4, y5, rfl, rfl⟩
    rw [ht, hy]
    exact advance_at_rest y t hr

/-- Witness for `even_overshoot`: distance 2 from step 942; the four calls
visit 943, 944, 945 and 944, and 945 is `steps`. -/
theorem even_overshoot_witness :
    (∃ y, advances [3, 6, 9] { restAtTop with currentStep := 942 } = some y ∧
      y.currentStep = 945 ∧ y.vel = 0 ∧ y.dir = 1) ∧
    (∃ y, advances [3, 6, 9, 12] { restAtTop with currentStep := 942 } = some y ∧
      y.currentStep = 944 ∧ y.vel = 0 ∧ y.dir = -1) :=
  ⟨(even_overshoot { restAtTop with currentStep := 942 } 2 (by decide) (by decide) (by decide)
      (by decide) (by decide) (by decide) (by decide) (by decide) [3, 6, 9]).2.2.1 rfl,
   (even_overshoot { restAtTop with currentStep := 942 } 2 (by decide) (by decide) (by decide)
      (by decide) (by decide) (by decide) (by decide) (by decide) [3, 6, 9, 12]).2.2.2.1 rfl⟩
end Switec
